import Mathlib

/-!
Verification of the clean-URL page generator
(`scripts/generate_clean_pages.py`) of the gotoolly.com maintenance-script
repository, against its natural-language specification.

The script is shallowly embedded: Python strings are `List Char`, filesystem
paths are lists of components relative to the repository root `ROOT`, the
filesystem itself is an association list from paths to contents, and the
`run` orchestrator is a fold over the discovered page files.  `re`-based
code (`CANONICAL_RE`) is embedded as an explicit backtracking matcher that
mirrors the Python engine: greedy `[^>]*` pieces are tried longest-first,
the scan is leftmost, and `re.sub` replaces non-overlapping matches left to
right.  `re.I` case-insensitivity is modeled as ASCII case folding.
Semantic corner cases of `pathlib` (suffix of dot-files, dropping of `'.'`
parts on `/`-joins, `rglob` matching hidden files) were checked against
CPython 3.11 and are reproduced exactly.
-/

set_option autoImplicit false

namespace CleanPages

/-- Text is modeled as a list of characters (Python `str`). -/
abbrev Str := List Char

/-- Turns a Lean string literal into the character-list model. -/
def str (s : String) : Str := s.data

/-- Python `s.replace(old, new)`: replace every leftmost, non-overlapping
occurrence of `old` by `new`.  (For `old = []` it returns `s` unchanged;
the script only calls it with the nonempty needles `'</head>'` and
`'\\'`.) -/
def pyReplaceGo (old new : Str) : Nat → Str → Str
  | 0, s => s
  | k + 1, s =>
    if old ≠ [] ∧ old <+: s then new ++ pyReplaceGo old new k (s.drop old.length)
    else
      match s with
      | [] => []
      | c :: t => c :: pyReplaceGo old new k t

/-- Python `s.replace(old, new)` proper, with fuel `s.length` (enough,
since every step consumes at least one character). -/
def pyReplace (s old new : Str) : Str := pyReplaceGo old new s.length s

/-- Python `needle in s` (substring test). -/
def pyContains (s needle : Str) : Bool :=
  match s with
  | [] => needle.isPrefixOf []
  | c :: t => needle.isPrefixOf (c :: t) || pyContains t needle

/-- Number of leftmost, non-overlapping occurrences of a nonempty `needle`
in `s` (the occurrences `str.replace` rewrites). -/
def occCountGo (needle : Str) : Nat → Str → Nat
  | 0, _ => 0
  | k + 1, s =>
    if needle ≠ [] ∧ needle <+: s then occCountGo needle k (s.drop needle.length) + 1
    else
      match s with
      | [] => 0
      | _ :: t => occCountGo needle k t

/-- `occCount` proper, with fuel `s.length`. -/
def occCount (s needle : Str) : Nat := occCountGo needle s.length s

/-- Length of the `pathlib` suffix of a file name: following CPython, the
suffix starts at the last `'.'` provided that dot is neither the first nor
the last character of the name (so `'.html'` and `'a.'` have no suffix). -/
def pySuffixLen (name : Str) : Nat :=
  match name.reverse.findIdx? (fun c => c == '.') with
  | none => 0
  | some k => if 1 ≤ k ∧ k ≤ name.length - 2 then k + 1 else 0

/-- `PurePath.with_suffix('')` applied to a file name: drop the suffix. -/
def pyStem (name : Str) : Str := name.take (name.length - pySuffixLen name)

/-- Components joined with `'/'` — the `str()` form of a relative
`pathlib` path (line 104 of the script). -/
def joinSlash : List Str → Str
  | [] => []
  | [x] => x
  | x :: y :: t => x ++ str "/" ++ joinSlash (y :: t)

/-- Joining components onto a base path with `pathlib`'s `/` drops `'.'`
and empty components (checked against CPython 3.11). -/
def pathParts (parts : List Str) : List Str :=
  parts.filter (fun c => !(c == [] || c == str "."))

/-- Python `domain.rstrip('/')`: drop all trailing `'/'` characters. -/
def rstripSlash (s : Str) : Str :=
  (s.reverse.dropWhile (fun c => c == '/')).reverse

/-- `rel.with_suffix('')` on a relative path: the suffix is stripped from
the last component (script line 102). -/
def strippedParts (rel : List Str) : List Str :=
  rel.dropLast ++ [pyStem (rel.getLast?.getD [])]

/-- `str(rel.with_suffix(''))` (script lines 104 and 106). -/
def relNoSuffStr (rel : List Str) : Str := joinSlash (strippedParts rel)

/-- The clean-copy directory of a page, relative to the site root
(line 102, special-cased to the root at lines 106-107). -/
def cleanTargetDir (rel : List Str) : List Str :=
  if relNoSuffStr rel = str "index" then []
  else pathParts (strippedParts rel)

/-- The clean-copy `index.html` path of a page, relative to the site root
(lines 103 and 108). -/
def cleanTargetIndex (rel : List Str) : List Str :=
  if relNoSuffStr rel = str "index" then [str "index.html"]
  else pathParts (strippedParts rel) ++ [str "index.html"]

/-- The canonical URL of a page (lines 104 and 109). -/
def cleanUrlOf (domain : Str) (rel : List Str) : Str :=
  if relNoSuffStr rel = str "index" then rstripSlash domain ++ str "/"
  else rstripSlash domain ++ str "/" ++ pyReplace (relNoSuffStr rel) (str "\\") (str "/")

/-- The meta-refresh destination used when mutating a legacy page
(line 141).  Note there is no special case for the root index page. -/
def legacyRedirectOf (rel : List Str) : Str :=
  str "/" ++ pyReplace (relNoSuffStr rel) (str "\\") (str "/")

/-- Whether a root-relative path escapes the site root: resolving its
`'..'` steps climbs above the starting directory at some point. -/
def escapesRoot (p : List Str) : Bool :=
  (p.foldl
    (fun d c =>
      match d with
      | none => none
      | some n => if c = str ".." then (if n = 0 then none else some (n - 1)) else some (n + 1))
    (some 0)).isNone

/-- The two HTML quote characters accepted by the pattern's `["']`
classes. -/
def isQuote (c : Char) : Bool := c == '"' || c == '\''

/-- Characters matched by the pattern's `[^>]` class. -/
def notGt (c : Char) : Bool := !(c == '>')

/-- Characters matched by the pattern's `[^"']` class. -/
def notQuote (c : Char) : Bool := !(isQuote c)

/-- Length of the run of characters satisfying `p` in `s` starting at
position `i`. -/
def runFrom (p : Char → Bool) (s : Str) (i : Nat) : Nat :=
  ((s.drop i).takeWhile p).length

/-- Case-insensitive literal test at position `i` (`re.I` is modeled as
ASCII case folding). -/
def litAt (s : Str) (i : Nat) (lit : Str) : Bool :=
  ((s.drop i).take lit.length).map Char.toLower == lit

/-- The character of `s` at position `i`, if in bounds. -/
def charAt : Str → Nat → Option Char
  | [], _ => none
  | c :: _, 0 => some c
  | _ :: t, n + 1 => charAt t n

theorem charAt_getElem (s : Str) (i : Nat) : charAt s i = s[i]? := by
  induction s generalizing i with
  | nil => cases i <;> simp [charAt]
  | cons c t ih =>
    cases i with
    | zero => simp [charAt]
    | succ n => simp [charAt, ih n]

/-- Is there a quote character at position `i`? -/
def isQuoteAt (s : Str) (i : Nat) : Bool := ((charAt s i).map isQuote).getD false

/-- Is the character at position `i` equal to `c`? -/
def isCharAt (s : Str) (i : Nat) (c : Char) : Bool := charAt s i == some c

/-- One match of `CANONICAL_RE` (script line 37): `start`/`stop` delimit
the whole match inside the subject, and `g1`, `g2`, `g3` are the three
capture groups (`g2` is the href value). -/
structure RMatch where
  start : Nat
  g1 : Str
  g2 : Str
  g3 : Str
  stop : Nat
deriving DecidableEq

/-- Tail of a match attempt once the position `b` of the `href=` literal
has been chosen: `href=["']` then `([^"']+)` then `["'][^>]*>`.  Both
remaining quantified pieces are forced: `[^"']+` must stop exactly before
the next quote, and `[^>]*` exactly before the next `'>'`. -/
def matchV (s : Str) (i b : Nat) : Option RMatch :=
  if litAt s b (str "href=") ∧ isQuoteAt s (b + 5) then
    let v0 := b + 6
    let vLen := runFrom notQuote s v0
    if 1 ≤ vLen ∧ isQuoteAt s (v0 + vLen) then
      let c0 := v0 + vLen + 1
      let cLen := runFrom notGt s c0
      if isCharAt s (c0 + cLen) '>' then
        some { start := i
               g1 := (s.drop i).take (b + 6 - i)
               g2 := (s.drop v0).take vLen
               g3 := (s.drop (v0 + vLen)).take (cLen + 2)
               stop := c0 + cLen + 1 }
      else none
    else none
  else none

/-- Backtracking over the second `[^>]*`: try `href=` at `b0 + k` for
`k` from the greedy maximum down to `0` (longest first, as `re` does). -/
def tryB (s : Str) (i b0 : Nat) : Nat → Option RMatch
  | 0 => matchV s i b0
  | k + 1 =>
    match matchV s i (b0 + (k + 1)) with
    | some m => some m
    | none => tryB s i b0 k

/-- Match attempt once the end `aEnd` of the first `[^>]*` has been
chosen: `rel=["']canonical["']` literally at `aEnd`, then the `href=`
part anywhere after the following `[^>]*`. -/
def afterA (s : Str) (i aEnd : Nat) : Option RMatch :=
  if litAt s aEnd (str "rel=") ∧ isQuoteAt s (aEnd + 4) ∧
      litAt s (aEnd + 5) (str "canonical") ∧ isQuoteAt s (aEnd + 14) then
    tryB s i (aEnd + 15) (runFrom notGt s (aEnd + 15))
  else none

/-- Backtracking over the first `[^>]*`: try lengths from the greedy
maximum down to `0`. -/
def tryA (s : Str) (i a0 : Nat) : Nat → Option RMatch
  | 0 => afterA s i a0
  | k + 1 =>
    match afterA s i (a0 + (k + 1)) with
    | some m => some m
    | none => tryA s i a0 k

/-- Python's backtracking match of `CANONICAL_RE` anchored at position
`i`: the literal `<link`, then the quantified pieces with greedy pieces
tried longest-first, mirroring the `re` engine. -/
def matchAt (s : Str) (i : Nat) : Option RMatch :=
  if litAt s i (str "<link") then tryA s i (i + 5) (runFrom notGt s (i + 5))
  else none

theorem matchV_start_stop {s : Str} {i b : Nat} {m : RMatch}
    (h : matchV s i b = some m) :
    m.start = i ∧ b + 6 < m.stop ∧ m.stop ≤ s.length := by
  unfold matchV at h
  dsimp only at h
  split at h
  · split at h
    · split at h
      · rename_i h2 h3
        cases h
        dsimp only
        refine ⟨rfl, by omega, ?_⟩
        simp only [isCharAt, charAt_getElem, beq_iff_eq] at h3
        obtain ⟨h4, -⟩ := List.getElem?_eq_some.mp h3
        omega
      · exact absurd h (by simp)
    · exact absurd h (by simp)
  · exact absurd h (by simp)

theorem tryB_start_stop {s : Str} {i b0 : Nat} {m : RMatch} :
    ∀ k : Nat, tryB s i b0 k = some m →
      m.start = i ∧ b0 + 6 < m.stop ∧ m.stop ≤ s.length := by
  intro k
  induction k with
  | zero => exact fun h => matchV_start_stop h
  | succ k ih =>
    intro h
    unfold tryB at h
    split at h
    · rename_i hm
      cases h
      have := matchV_start_stop hm
      exact ⟨this.1, by omega, this.2.2⟩
    · exact ih h

theorem afterA_start_stop {s : Str} {i aEnd : Nat} {m : RMatch}
    (h : afterA s i aEnd = some m) :
    m.start = i ∧ aEnd + 21 < m.stop ∧ m.stop ≤ s.length := by
  unfold afterA at h
  split at h
  · have := tryB_start_stop _ h
    exact ⟨this.1, by omega, this.2.2⟩
  · exact absurd h (by simp)

theorem tryA_start_stop {s : Str} {i a0 : Nat} {m : RMatch} :
    ∀ k : Nat, tryA s i a0 k = some m →
      m.start = i ∧ a0 + 21 < m.stop ∧ m.stop ≤ s.length := by
  intro k
  induction k with
  | zero =>
    intro h
    have := afterA_start_stop (by simpa [tryA] using h)
    exact ⟨this.1, by omega, this.2.2⟩
  | succ k ih =>
    intro h
    unfold tryA at h
    split at h
    · rename_i hm
      cases h
      have := afterA_start_stop hm
      exact ⟨this.1, by omega, this.2.2⟩
    · exact ih h

theorem matchAt_start_stop {s : Str} {i : Nat} {m : RMatch}
    (h : matchAt s i = some m) :
    m.start = i ∧ i < m.stop ∧ m.stop ≤ s.length := by
  unfold matchAt at h
  split at h
  · have := tryA_start_stop _ h
    exact ⟨this.1, by omega, this.2.2⟩
  · exact absurd h (by simp)

/-- Fuel-driven worker scanning positions `i, i+1, ...` for a match. -/
def searchFromGo (s : Str) : Nat → Nat → Option RMatch
  | 0, _ => none
  | k + 1, i =>
    match matchAt s i with
    | some m => some m
    | none => searchFromGo s k (i + 1)

/-- Leftmost match of `CANONICAL_RE` at or after position `i`
(the scanning of `re.search` and `re.sub`). -/
def searchFrom (s : Str) (i : Nat) : Option RMatch :=
  searchFromGo s (s.length + 1 - i) i

theorem matchAt_none_of_ge {s : Str} {i : Nat} (h : s.length ≤ i) :
    matchAt s i = none := by
  have hl : litAt s i (str "<link") = false := by
    unfold litAt
    rw [List.drop_eq_nil_of_le h]
    rfl
  simp [matchAt, hl]

theorem searchFromGo_start_stop {s : Str} {m : RMatch} :
    ∀ (k i : Nat), searchFromGo s k i = some m →
      i ≤ m.start ∧ m.start < m.stop ∧ m.stop ≤ s.length := by
  intro k
  induction k with
  | zero => intro i h; exact absurd h (by simp [searchFromGo])
  | succ k ih =>
    intro i h
    unfold searchFromGo at h
    split at h
    · rename_i hm
      cases h
      have := matchAt_start_stop hm
      omega
    · have := ih (i + 1) h
      omega

theorem searchFrom_start_stop {s : Str} {i : Nat} {m : RMatch}
    (h : searchFrom s i = some m) :
    i ≤ m.start ∧ m.start < m.stop ∧ m.stop ≤ s.length :=
  searchFromGo_start_stop _ i h

theorem searchFrom_eq (s : Str) (i : Nat) :
    searchFrom s i =
      if s.length < i then none
      else
        match matchAt s i with
        | some m => some m
        | none => searchFrom s (i + 1) := by
  unfold searchFrom
  by_cases h : s.length < i
  · rw [if_pos h]
    have h0 : s.length + 1 - i = 0 := by omega
    rw [h0]
    rfl
  · rw [if_neg h]
    have h1 : s.length + 1 - i = (s.length - i) + 1 := by omega
    have h2 : s.length + 1 - (i + 1) = s.length - i := by omega
    rw [h1, h2]
    rfl

/-- Fuel-driven worker for `re.sub` over `CANONICAL_RE`. -/
def subFromGo (s url : Str) : Nat → Nat → Str
  | 0, i => s.drop i
  | k + 1, i =>
    match searchFrom s i with
    | none => s.drop i
    | some m =>
        (s.drop i).take (m.start - i) ++ m.g1 ++ url ++ m.g3 ++ subFromGo s url k m.stop

theorem searchFrom_none_of_gt {s : Str} {i : Nat} (h : s.length < i) :
    searchFrom s i = none := by
  rw [searchFrom_eq, if_pos h]

theorem subFromGo_fuel {s url : Str} :
    ∀ (k k' i : Nat), s.length + 1 - i ≤ k → s.length + 1 - i ≤ k' →
      subFromGo s url k i = subFromGo s url k' i := by
  intro k
  induction k with
  | zero =>
    intro k' i hk hk'
    have hi : s.length < i := by omega
    have hs : searchFrom s i = none := searchFrom_none_of_gt hi
    cases k' with
    | zero => rfl
    | succ k' =>
      show s.drop i = _
      unfold subFromGo
      rw [hs]
  | succ k ih =>
    intro k' i hk hk'
    cases k' with
    | zero =>
      have hi : s.length < i := by omega
      have hs : searchFrom s i = none := searchFrom_none_of_gt hi
      show _ = s.drop i
      unfold subFromGo
      rw [hs]
    | succ k' =>
      show (match searchFrom s i with
        | none => s.drop i
        | some m =>
            (s.drop i).take (m.start - i) ++ m.g1 ++ url ++ m.g3 ++ subFromGo s url k m.stop) =
        (match searchFrom s i with
        | none => s.drop i
        | some m =>
            (s.drop i).take (m.start - i) ++ m.g1 ++ url ++ m.g3 ++ subFromGo s url k' m.stop)
      cases hm : searchFrom s i with
      | none => rfl
      | some m =>
        have hb := searchFrom_start_stop hm
        dsimp only
        rw [ih k' m.stop (by omega) (by omega)]

/-- `CANONICAL_RE.sub` with replacement `g1 + url + g3` (script line 57),
processing the subject from position `i`. -/
def subFrom (s url : Str) (i : Nat) : Str :=
  subFromGo s url (s.length + 1 - i) i

theorem subFrom_eq (s url : Str) (i : Nat) :
    subFrom s url i =
      match searchFrom s i with
      | none => s.drop i
      | some m =>
          (s.drop i).take (m.start - i) ++ m.g1 ++ url ++ m.g3 ++ subFrom s url m.stop := by
  unfold subFrom
  by_cases h : s.length < i
  · have h0 : s.length + 1 - i = 0 := by omega
    rw [h0, searchFrom_none_of_gt h]
    rfl
  · have h1 : s.length + 1 - i = (s.length - i) + 1 := by omega
    rw [h1]
    show (match searchFrom s i with
      | none => s.drop i
      | some m =>
          (s.drop i).take (m.start - i) ++ m.g1 ++ url ++ m.g3 ++
            subFromGo s url (s.length - i) m.stop) = _
    cases hm : searchFrom s i with
    | none => rfl
    | some m =>
      have hb := searchFrom_start_stop hm
      dsimp only
      rw [subFromGo_fuel (s.length - i) (s.length + 1 - m.stop) m.stop (by omega) (by omega)]

/-- `add_canonical_to_html` (script lines 53-70). -/
def addCanonicalToHtml (content url : Str) : Str × Bool :=
  match searchFrom content 0 with
  | some _ =>
    let n := subFrom content url 0
    (n, decide (n ≠ content))
  | none =>
    let ins := str "  <link rel=\"canonical\" href=\"" ++ url ++ str "\">\n"
    if pyContains content (str "</head>") then
      (pyReplace content (str "</head>") (ins ++ str "</head>"), true)
    else (ins ++ content, true)

/-- `str(seconds)` for the integer delay of a meta refresh. -/
def intStr (n : Int) : Str := (toString n).data

/-- The refresh instruction `add_meta_refresh` builds (script line 76). -/
def metaTag (target : Str) (seconds : Int) : Str :=
  str "<meta http-equiv=\"refresh\" content=\"" ++ intStr seconds
    ++ str "; url=" ++ target ++ str "\">\n"

/-- `add_meta_refresh` (script lines 73-85). -/
def addMetaRefresh (content target : Str) (seconds : Int) : Str × Bool :=
  if pyContains content (metaTag target seconds) then (content, false)
  else if pyContains content (str "</head>") then
    (pyReplace content (str "</head>")
      (str "  " ++ metaTag target seconds ++ str "</head>"), true)
  else (metaTag target seconds ++ content, true)

/-- A filesystem path: its components relative to the repository root
`ROOT` (script line 31). -/
abbrev FPath := List Str

/-- The filesystem as an association list from paths to file contents;
the first binding of a path is its content. -/
abbrev FS := List (FPath × Str)

/-- Content of the file at `p`, if it exists (`read_text`); the first
binding of `p` counts. -/
def lookupFS : FS → FPath → Option Str
  | [], _ => none
  | (q, d) :: t, p => if q = p then some d else lookupFS t p

/-- Write `c` to `p` (`write_text` / the write half of `shutil.copy2`):
replace the first binding of `p`, or append a new one. -/
def writeFS (fs : FS) (p : FPath) (c : Str) : FS :=
  match fs with
  | [] => [(p, c)]
  | (q, d) :: t => if q = p then (p, c) :: t else (q, d) :: writeFS t p c

/-- `write_backup` (script lines 88-91): the backup path
`path.with_suffix(path.suffix + '.bak')` always appends `.bak` to the
last component. -/
def bakPath (p : FPath) : FPath :=
  p.dropLast ++ [p.getLast?.getD [] ++ str ".bak"]

/-- `find_page_files` membership (script lines 40-46): files under
`ROOT/pages` matched by `rglob('*.html')` (which also matches hidden
names, per CPython), minus paths with an excluded component. -/
def isPageFile (p : FPath) : Bool :=
  p.head? == some (str "pages") && decide (2 ≤ p.length) &&
    (str ".html").isSuffixOf (p.getLast?.getD []) &&
    !(p.any (fun c => c == str "assets" || c == str ".git"))

/-- The discovered page files, in filesystem order. -/
def discover (fs : FS) : List FPath :=
  (fs.map (fun e => e.1)).filter isPageFile

/-- The command-line configuration of `run` (script lines 94 and
152-162); `dry_run` is `not args.apply`. -/
structure Config where
  dryRun : Bool
  canonicalOld : Bool
  redirectOld : Bool
  redirectType : Str
  domain : Str
  force : Bool
deriving DecidableEq

/-- The console messages `run` prints, abstracted as events. -/
inductive Msg where
  | dryPlan (target : FPath) (src : FPath) (url : Str)
  | skip (target : FPath)
  | created (target : FPath)
  | updatedLegacy (src : FPath)
  | summary (created modified : Nat)
deriving DecidableEq

/-- The mutable state threaded through `run`'s loop. -/
structure RunState where
  fs : FS
  log : List Msg
  created : List FPath
  modified : List FPath
deriving DecidableEq

/-- The create-or-skip half of `run`'s loop body (script lines 114-130). -/
def creationStep (cfg : Config) (st : RunState) (f : FPath) : RunState :=
  let rel := f.tail
  let target := cleanTargetIndex rel
  let url := cleanUrlOf cfg.domain rel
  if (lookupFS st.fs target).isSome ∧ cfg.force = false then
    { st with log := st.log ++ [Msg.skip target] }
  else
    let content := (lookupFS st.fs f).getD []
    let newC := (addCanonicalToHtml content url).1
    let fs1 :=
      if (lookupFS st.fs target).isSome ∧ cfg.force = true then
        writeFS st.fs (bakPath target) ((lookupFS st.fs target).getD [])
      else st.fs
    { st with
      fs := writeFS fs1 target newC
      created := st.created ++ [target]
      log := st.log ++ [Msg.created target] }

/-- The new legacy content and the `changed_any` flag of the
legacy-mutation half (script lines 134-142). -/
def legacyNew (cfg : Config) (orig : Str) (rel : List Str) : Str × Bool :=
  let url := cleanUrlOf cfg.domain rel
  let r1 := if cfg.canonicalOld = true then addCanonicalToHtml orig url else (orig, false)
  let r2 := if cfg.redirectOld = true ∧ cfg.redirectType = str "meta" then
      addMetaRefresh r1.1 (legacyRedirectOf rel) 0
    else (r1.1, false)
  (r2.1, r1.2 || r2.2)

/-- The legacy-mutation half of `run`'s loop body (script lines
132-147). -/
def legacyStep (cfg : Config) (st1 : RunState) (f : FPath) : RunState :=
  if cfg.canonicalOld = true ∨ cfg.redirectOld = true then
    let orig := (lookupFS st1.fs f).getD []
    let r := legacyNew cfg orig f.tail
    if r.2 = true then
      { st1 with
        fs := writeFS (writeFS st1.fs (bakPath f) orig) f r.1
        modified := st1.modified ++ [f]
        log := st1.log ++ [Msg.updatedLegacy f] }
    else st1
  else st1

/-- The body of `run`'s per-file loop (script lines 99-147). -/
def processFile (cfg : Config) (st : RunState) (f : FPath) : RunState :=
  if cfg.dryRun then
    { st with
      log := st.log ++ [Msg.dryPlan (cleanTargetIndex f.tail) f (cleanUrlOf cfg.domain f.tail)] }
  else legacyStep cfg (creationStep cfg st f) f

/-- `run` (script lines 94-149): fold the per-file body over the
discovered files, then print the summary line. -/
def runScript (cfg : Config) (fs : FS) : RunState :=
  let files := discover fs
  let st := files.foldl (processFile cfg) ⟨fs, [], [], []⟩
  { st with log := st.log ++ [Msg.summary st.created.length st.modified.length] }

/-- The clean target described by claim C1's formula,
`dirname(p)/basename(p without .html)/index.html`, where
`p without .html` drops the 5-character `.html` extension; read with the
same join semantics the code's `pathlib` joins use.  This is the one
definition that follows the specification's words rather than the
source, for comparison with `cleanTargetIndex`. -/
def specCleanTarget (rel : List Str) : List Str :=
  pathParts (rel.dropLast ++
      [(rel.getLast?.getD []).take ((rel.getLast?.getD []).length - 5)]) ++
    [str "index.html"]

/-! ## Supporting lemmas -/

theorem pySuffixLen_html {base : Str} (hsuf : str ".html" <:+ base)
    (hne : base ≠ str ".html") : pySuffixLen base = 5 := by
  obtain ⟨y, rfl⟩ := hsuf
  have hy : y ≠ [] := by
    intro h
    exact hne (by simp [h])
  have hrev : (y ++ str ".html").reverse =
      'l' :: 'm' :: 't' :: 'h' :: '.' :: y.reverse := by
    simp [str, List.reverse_append]
  have hlen : 6 ≤ (y ++ str ".html").length := by
    have : 1 ≤ y.length := List.length_pos.mpr hy
    simp [str]
    omega
  unfold pySuffixLen
  rw [hrev]
  have hfind : List.findIdx? (fun c => c == '.')
      ('l' :: 'm' :: 't' :: 'h' :: '.' :: y.reverse) = some 4 := rfl
  rw [hfind]
  have hc : 1 ≤ 4 ∧ 4 ≤ (y ++ str ".html").length - 2 := ⟨by norm_num, by omega⟩
  dsimp only
  rw [if_pos hc]

theorem pyStem_html {base : Str} (hsuf : str ".html" <:+ base)
    (hne : base ≠ str ".html") :
    pyStem base = base.take (base.length - 5) := by
  unfold pyStem
  rw [pySuffixLen_html hsuf hne]

theorem slash_mem_joinSlash (x z : Str) (t : List Str) :
    '/' ∈ joinSlash (x :: z :: t) := by
  unfold joinSlash
  simp [str]

theorem relNoSuff_ne_index {rel : List Str}
    (hsuf : str ".html" <:+ rel.getLast?.getD [])
    (hidx : rel ≠ [str "index.html"]) :
    relNoSuffStr rel ≠ str "index" := by
  match rel with
  | [] =>
    exfalso
    have := hsuf.length_le
    simp [str] at this
  | [x] =>
    intro h
    have hx : pyStem x = str "index" := by
      simpa [relNoSuffStr, strippedParts, joinSlash] using h
    by_cases hne : x = str ".html"
    · rw [hne] at hx
      exact absurd hx (by decide)
    · have hsx : str ".html" <:+ x := by simpa using hsuf
      obtain ⟨y, rfl⟩ := hsx
      rw [pyStem_html (by simp) hne] at hx
      have : y = str "index" := by
        have hl : (y ++ str ".html").length - 5 = y.length := by simp [str]
        rw [hl, List.take_left] at hx
        exact hx
      refine hidx ?_
      rw [this]
      rfl
  | x :: z :: t =>
    intro h
    have hmem : '/' ∈ relNoSuffStr (x :: z :: t) := by
      unfold relNoSuffStr strippedParts
      have : (x :: z :: t).dropLast ++ [pyStem ((x :: z :: t).getLast?.getD [])] =
          x :: ((z :: t).dropLast ++ [pyStem ((x :: z :: t).getLast?.getD [])]) := by
        simp
      rw [this]
      match hzt : (z :: t).dropLast ++ [pyStem ((x :: z :: t).getLast?.getD [])] with
      | [] => simp at hzt
      | w :: ws => exact slash_mem_joinSlash x w ws
    rw [h] at hmem
    exact absurd hmem (by decide)

theorem pyContains_iff {s needle : Str} :
    pyContains s needle = true ↔ needle <:+: s := by
  induction s with
  | nil =>
    simp [pyContains, List.isPrefixOf_iff_prefix]
  | cons c t ih =>
    simp [pyContains, List.isPrefixOf_iff_prefix, ih, List.infix_cons_iff]

theorem pyReplaceGo_nil {old new : Str} : ∀ k : Nat, pyReplaceGo old new k [] = [] := by
  intro k
  cases k with
  | zero => rfl
  | succ k =>
    unfold pyReplaceGo
    rw [if_neg]
    rintro ⟨hne, hpre⟩
    exact hne (List.prefix_nil.mp hpre)

theorem pyReplaceGo_fuel {old new : Str} :
    ∀ (k k' : Nat) (s : Str), s.length ≤ k → s.length ≤ k' →
      pyReplaceGo old new k s = pyReplaceGo old new k' s := by
  intro k
  induction k with
  | zero =>
    intro k' s hk _
    have : s = [] := List.eq_nil_of_length_eq_zero (by omega)
    subst this
    rw [pyReplaceGo_nil, pyReplaceGo_nil]
  | succ k ih =>
    intro k' s hk hk'
    cases k' with
    | zero =>
      have : s = [] := List.eq_nil_of_length_eq_zero (by omega)
      subst this
      rw [pyReplaceGo_nil, pyReplaceGo_nil]
    | succ k' =>
      unfold pyReplaceGo
      by_cases h : old ≠ [] ∧ old <+: s
      · rw [if_pos h, if_pos h]
        have h1 : 0 < old.length := List.length_pos.mpr h.1
        have h2 : old.length ≤ s.length := h.2.length_le
        rw [ih k' (s.drop old.length) (by simp; omega) (by simp; omega)]
      · rw [if_neg h, if_neg h]
        cases s with
        | nil => rfl
        | cons c t =>
          simp only [List.length_cons] at hk hk'
          dsimp only
          rw [ih k' t (by omega) (by omega)]

theorem pyReplace_eq (s old new : Str) :
    pyReplace s old new =
      if old ≠ [] ∧ old <+: s then new ++ pyReplace (s.drop old.length) old new
      else
        match s with
        | [] => []
        | c :: t => c :: pyReplace t old new := by
  cases s with
  | nil =>
    rw [if_neg]
    · rfl
    · rintro ⟨hne, hpre⟩
      exact hne (List.prefix_nil.mp hpre)
  | cons c t =>
    show pyReplaceGo old new (t.length + 1) (c :: t) = _
    unfold pyReplaceGo
    by_cases h : old ≠ [] ∧ old <+: (c :: t)
    · rw [if_pos h, if_pos h]
      have h1 : 0 < old.length := List.length_pos.mpr h.1
      have h2 : old.length ≤ (c :: t).length := h.2.length_le
      simp only [List.length_cons] at h2
      have h3 : ((c :: t).drop old.length).length ≤ t.length := by
        simp only [List.length_drop, List.length_cons]
        omega
      rw [pyReplaceGo_fuel t.length ((c :: t).drop old.length).length
        ((c :: t).drop old.length) h3 le_rfl]
      rfl
    · rw [if_neg h, if_neg h]
      rfl

theorem pyReplace_mid {s nd r : Str} (hne : nd ≠ []) (h : nd <:+: s) :
    r <:+: pyReplace s nd r := by
  induction s with
  | nil =>
    exact absurd (List.infix_nil.mp h) hne
  | cons c t ih =>
    rw [pyReplace_eq]
    by_cases hp : nd ≠ [] ∧ nd <+: (c :: t)
    · rw [if_pos hp]
      exact (List.prefix_append r _).isInfix
    · rw [if_neg hp]
      have hit : nd <:+: t := by
        rcases List.infix_cons_iff.mp h with hpre | hinf
        · exact absurd ⟨hne, hpre⟩ hp
        · exact hinf
      exact List.infix_cons (ih hit)

/-! ### Occurrence counting and single-occurrence replacement -/

theorem occCountGo_nil {needle : Str} : ∀ k : Nat, occCountGo needle k [] = 0 := by
  intro k
  cases k with
  | zero => rfl
  | succ k =>
    unfold occCountGo
    rw [if_neg]
    rintro ⟨hne, hpre⟩
    exact hne (List.prefix_nil.mp hpre)

theorem occCountGo_fuel {needle : Str} :
    ∀ (k k' : Nat) (s : Str), s.length ≤ k → s.length ≤ k' →
      occCountGo needle k s = occCountGo needle k' s := by
  intro k
  induction k with
  | zero =>
    intro k' s hk _
    have : s = [] := List.eq_nil_of_length_eq_zero (by omega)
    subst this
    rw [occCountGo_nil, occCountGo_nil]
  | succ k ih =>
    intro k' s hk hk'
    cases k' with
    | zero =>
      have : s = [] := List.eq_nil_of_length_eq_zero (by omega)
      subst this
      rw [occCountGo_nil, occCountGo_nil]
    | succ k' =>
      unfold occCountGo
      by_cases h : needle ≠ [] ∧ needle <+: s
      · rw [if_pos h, if_pos h]
        have h1 : 0 < needle.length := List.length_pos.mpr h.1
        have h2 : needle.length ≤ s.length := h.2.length_le
        rw [ih k' (s.drop needle.length) (by simp; omega) (by simp; omega)]
      · rw [if_neg h, if_neg h]
        cases s with
        | nil => rfl
        | cons c t =>
          simp only [List.length_cons] at hk hk'
          dsimp only
          rw [ih k' t (by omega) (by omega)]

theorem occCount_eq (s needle : Str) :
    occCount s needle =
      if needle ≠ [] ∧ needle <+: s then occCount (s.drop needle.length) needle + 1
      else
        match s with
        | [] => 0
        | _ :: t => occCount t needle := by
  cases s with
  | nil =>
    rw [if_neg]
    · rfl
    · rintro ⟨hne, hpre⟩
      exact hne (List.prefix_nil.mp hpre)
  | cons c t =>
    show occCountGo needle (t.length + 1) (c :: t) = _
    unfold occCountGo
    by_cases h : needle ≠ [] ∧ needle <+: (c :: t)
    · rw [if_pos h, if_pos h]
      have h1 : 0 < needle.length := List.length_pos.mpr h.1
      have h2 : needle.length ≤ (c :: t).length := h.2.length_le
      simp only [List.length_cons] at h2
      have h3 : ((c :: t).drop needle.length).length ≤ t.length := by
        simp only [List.length_drop, List.length_cons]
        omega
      rw [occCountGo_fuel t.length ((c :: t).drop needle.length).length
        ((c :: t).drop needle.length) h3 le_rfl]
      rfl
    · rw [if_neg h, if_neg h]
      rfl

theorem pyContains_cons (c : Char) (t needle : Str) :
    pyContains (c :: t) needle = (needle.isPrefixOf (c :: t) || pyContains t needle) := rfl

theorem occCount_pos {s needle : Str} (hne : needle ≠ [])
    (h : pyContains s needle = true) : 1 ≤ occCount s needle := by
  induction s with
  | nil =>
    exfalso
    have : needle <+: [] := List.isPrefixOf_iff_prefix.mp (by simpa [pyContains] using h)
    exact hne (List.prefix_nil.mp this)
  | cons c t ih =>
    rw [occCount_eq]
    by_cases hp : needle ≠ [] ∧ needle <+: (c :: t)
    · rw [if_pos hp]
      omega
    · rw [if_neg hp]
      rw [pyContains_cons, Bool.or_eq_true] at h
      rcases h with h | h
      · exact absurd ⟨hne, List.isPrefixOf_iff_prefix.mp h⟩ hp
      · exact ih h

theorem pyReplace_no_occ {s needle r : Str} (h : pyContains s needle = false) :
    pyReplace s needle r = s := by
  induction s with
  | nil =>
    rw [pyReplace_eq]
    rw [if_neg]
    rintro ⟨hne, hpre⟩
    have : needle.isPrefixOf [] = true := List.isPrefixOf_iff_prefix.mpr hpre
    simp [pyContains, this] at h
  | cons c t ih =>
    rw [pyReplace_eq]
    rw [pyContains_cons, Bool.or_eq_false_iff] at h
    rw [if_neg]
    · dsimp only
      rw [ih h.2]
    · rintro ⟨hne, hpre⟩
      rw [List.isPrefixOf_iff_prefix.mpr hpre] at h
      exact Bool.noConfusion h.1

/-- A single leftmost occurrence of `needle` splits the subject, and
`str.replace` rewrites exactly that occurrence. -/
theorem pyReplace_single {s needle r : Str} (hne : needle ≠ [])
    (h1 : pyContains s needle = true) (h2 : occCount s needle ≤ 1) :
    ∃ x0 x1, s = x0 ++ needle ++ x1 ∧ pyReplace s needle r = x0 ++ r ++ x1 := by
  induction s with
  | nil =>
    exfalso
    have : needle <+: [] := List.isPrefixOf_iff_prefix.mp (by simpa [pyContains] using h1)
    exact hne (List.prefix_nil.mp this)
  | cons c t ih =>
    by_cases hp : needle <+: (c :: t)
    · obtain ⟨rest, hrest⟩ := hp
      have hocc : occCount ((c :: t).drop needle.length) needle = 0 := by
        have := occCount_eq (c :: t) needle
        rw [if_pos ⟨hne, ⟨rest, hrest⟩⟩] at this
        omega
      have hrest2 : (c :: t).drop needle.length = rest := by
        rw [← hrest, List.drop_left]
      have hnc : pyContains rest needle = false := by
        by_contra hcon
        have := occCount_pos hne (by simpa using Bool.not_eq_false _ ▸ hcon)
        rw [← hrest2] at this
        omega
      refine ⟨[], rest, by simpa using hrest.symm, ?_⟩
      rw [pyReplace_eq, if_pos ⟨hne, ⟨rest, hrest⟩⟩, hrest2, pyReplace_no_occ hnc]
      simp
    · have hct : pyContains t needle = true := by
        rw [pyContains_cons, Bool.or_eq_true] at h1
        rcases h1 with h | h
        · exact absurd (List.isPrefixOf_iff_prefix.mp h) hp
        · exact h
      have hocct : occCount t needle ≤ 1 := by
        have := occCount_eq (c :: t) needle
        rw [if_neg (fun hh => hp hh.2)] at this
        dsimp only at this
        omega
      obtain ⟨x0, x1, hs, hr⟩ := ih hct hocct
      refine ⟨c :: x0, x1, by rw [hs]; rfl, ?_⟩
      rw [pyReplace_eq, if_neg (fun hh => hp hh.2)]
      dsimp only
      rw [hr]
      rfl

/-! ### Filesystem and run-level lemmas -/

theorem lookup_write_self (fs : FS) (p : FPath) (c : Str) :
    lookupFS (writeFS fs p c) p = some c := by
  induction fs with
  | nil => simp [writeFS, lookupFS]
  | cons e t ih =>
    obtain ⟨q, d⟩ := e
    unfold writeFS
    by_cases h : q = p
    · rw [if_pos h]
      simp [lookupFS]
    · rw [if_neg h]
      unfold lookupFS
      rw [if_neg h]
      exact ih

theorem lookup_write_ne (fs : FS) (p q : FPath) (c : Str) (h : q ≠ p) :
    lookupFS (writeFS fs p c) q = lookupFS fs q := by
  induction fs with
  | nil =>
    unfold writeFS lookupFS
    rw [if_neg (fun e => h e.symm)]
    rfl
  | cons e t ih =>
    obtain ⟨r, d⟩ := e
    unfold writeFS
    by_cases hr : r = p
    · rw [if_pos hr]
      unfold lookupFS
      rw [if_neg (fun e => h e.symm), hr, if_neg (fun e => h e.symm)]
    · rw [if_neg hr]
      unfold lookupFS
      by_cases hq : r = q
      · rw [if_pos hq, if_pos hq]
      · rw [if_neg hq, if_neg hq]
        exact ih

theorem cleanTargetIndex_getLast (rel : List Str) :
    (cleanTargetIndex rel).getLast? = some (str "index.html") := by
  unfold cleanTargetIndex
  by_cases h : relNoSuffStr rel = str "index"
  · rw [if_pos h]
    rfl
  · rw [if_neg h]
    exact List.getLast?_concat _

theorem cleanTargetIndex_ne_nil (rel : List Str) : cleanTargetIndex rel ≠ [] := by
  intro h
  have := cleanTargetIndex_getLast rel
  rw [h] at this
  exact Option.noConfusion this

theorem bakPath_getLast (p : FPath) :
    (bakPath p).getLast? = some (p.getLast?.getD [] ++ str ".bak") :=
  List.getLast?_concat _

theorem bak_suffix_ne_html (x y : Str) : x ++ str ".bak" ≠ y ++ str ".html" := by
  intro h
  have h1 : (x ++ str ".bak").getLast? = (y ++ str ".html").getLast? := by rw [h]
  rw [List.getLast?_append, List.getLast?_append] at h1
  simp [str] at h1

theorem cleanTargetIndex_ne_bakPath (rel : List Str) (q : FPath) :
    cleanTargetIndex rel ≠ bakPath q := by
  intro h
  have h1 := congrArg List.getLast? h
  rw [cleanTargetIndex_getLast, bakPath_getLast] at h1
  have h2 : str "index.html" = q.getLast?.getD [] ++ str ".bak" :=
    Option.some.inj h1
  exact bak_suffix_ne_html _ (str "index") (h2.symm.trans (by rfl))

theorem html_last_ne_bakPath {p : FPath} (q : FPath)
    (h : str ".html" <:+ p.getLast?.getD []) : p ≠ bakPath q := by
  intro he
  obtain ⟨y, hy⟩ := h
  have h1 := congrArg List.getLast? he
  rw [bakPath_getLast] at h1
  rw [he, bakPath_getLast] at hy
  simp only [Option.getD_some] at hy
  exact bak_suffix_ne_html (q.getLast?.getD []) y hy.symm

theorem bakPath_inj {p q : FPath} (hp : p ≠ []) (hq : q ≠ [])
    (h : bakPath p = bakPath q) : p = q := by
  unfold bakPath at h
  have h1 : p.dropLast = q.dropLast := by
    have := congrArg List.dropLast h
    rwa [List.dropLast_concat, List.dropLast_concat] at this
  have h2 : p.getLast?.getD [] = q.getLast?.getD [] := by
    have := congrArg List.getLast? h
    rw [List.getLast?_concat, List.getLast?_concat] at this
    exact List.append_cancel_right (Option.some.inj this)
  rw [List.getLast?_eq_getLast p hp, List.getLast?_eq_getLast q hq] at h2
  simp only [Option.getD_some] at h2
  rw [← List.dropLast_append_getLast hp, ← List.dropLast_append_getLast hq, h1, h2]

theorem mem_discover {fs : FS} {f : FPath} (h : f ∈ discover fs) :
    2 ≤ f.length ∧ str ".html" <:+ f.getLast?.getD [] := by
  unfold discover at h
  have h2 := List.of_mem_filter h
  unfold isPageFile at h2
  simp only [Bool.and_eq_true, decide_eq_true_eq, Bool.not_eq_true] at h2
  exact ⟨h2.1.1.2, List.isSuffixOf_iff_suffix.mp h2.1.2⟩

theorem discover_ne_nil_mem {fs : FS} {f : FPath} (h : f ∈ discover fs) : f ≠ [] := by
  have := (mem_discover h).1
  intro he
  rw [he] at this
  simp at this

/-- Frame property of the creation half: it writes only the clean target
and (when forcing) the clean target's backup. -/
theorem creationStep_lookup_preserved (cfg : Config) (st : RunState) (g p : FPath)
    (h1 : p ≠ cleanTargetIndex g.tail)
    (h2 : p ≠ bakPath (cleanTargetIndex g.tail)) :
    lookupFS (creationStep cfg st g).fs p = lookupFS st.fs p := by
  unfold creationStep
  dsimp only
  split
  · rfl
  · split
    · rw [lookup_write_ne _ _ _ _ h1, lookup_write_ne _ _ _ _ h2]
    · rw [lookup_write_ne _ _ _ _ h1]

/-- Frame property of the legacy half: it writes only the legacy file and
its backup. -/
theorem legacyStep_lookup_preserved (cfg : Config) (st1 : RunState) (g p : FPath)
    (h3 : p ≠ g)
    (h4 : p ≠ bakPath g) :
    lookupFS (legacyStep cfg st1 g).fs p = lookupFS st1.fs p := by
  unfold legacyStep
  dsimp only
  split
  · split
    · rw [lookup_write_ne _ _ _ _ h3, lookup_write_ne _ _ _ _ h4]
    · rfl
  · rfl

/-- Frame property of the per-file body: a path different from the four
paths a step can write (the clean target, its backup, the legacy file,
its backup) keeps its content. -/
theorem processFile_lookup_preserved (cfg : Config) (st : RunState) (g p : FPath)
    (h1 : p ≠ cleanTargetIndex g.tail)
    (h2 : p ≠ bakPath (cleanTargetIndex g.tail))
    (h3 : p ≠ g)
    (h4 : p ≠ bakPath g) :
    lookupFS (processFile cfg st g).fs p = lookupFS st.fs p := by
  unfold processFile
  split
  · rfl
  · rw [legacyStep_lookup_preserved cfg _ g p h3 h4,
      creationStep_lookup_preserved cfg st g p h1 h2]

theorem creationStep_log (cfg : Config) (st : RunState) (g : FPath) :
    ∃ d : List Msg, (creationStep cfg st g).log = st.log ++ d := by
  unfold creationStep
  dsimp only
  split
  · exact ⟨_, rfl⟩
  · split
    · exact ⟨_, rfl⟩
    · exact ⟨_, rfl⟩

theorem legacyStep_log (cfg : Config) (st1 : RunState) (g : FPath) :
    ∃ d : List Msg, (legacyStep cfg st1 g).log = st1.log ++ d := by
  unfold legacyStep
  dsimp only
  split
  · split
    · exact ⟨_, rfl⟩
    · exact ⟨[], by simp⟩
  · exact ⟨[], by simp⟩

theorem processFile_log_mem (cfg : Config) (st : RunState) (g : FPath) {m : Msg}
    (h : m ∈ st.log) : m ∈ (processFile cfg st g).log := by
  unfold processFile
  split
  · simp [h]
  · obtain ⟨d1, hd1⟩ := creationStep_log cfg st g
    obtain ⟨d2, hd2⟩ := legacyStep_log cfg (creationStep cfg st g) g
    rw [hd2, hd1]
    simp [h]

theorem foldl_log_mem (cfg : Config) {m : Msg} :
    ∀ (l : List FPath) (st : RunState), m ∈ st.log →
      m ∈ (l.foldl (processFile cfg) st).log := by
  intro l
  induction l with
  | nil => intro st h; exact h
  | cons g t ih =>
    intro st h
    rw [List.foldl_cons]
    exact ih _ (processFile_log_mem cfg st g h)

theorem processFile_skip_mem (cfg : Config) (st : RunState) (f : FPath)
    (hdry : cfg.dryRun = false) (hforce : cfg.force = false)
    (hsome : (lookupFS st.fs (cleanTargetIndex f.tail)).isSome = true) :
    Msg.skip (cleanTargetIndex f.tail) ∈ (processFile cfg st f).log := by
  unfold processFile
  rw [if_neg (by simp [hdry])]
  obtain ⟨d2, hd2⟩ := legacyStep_log cfg (creationStep cfg st f) f
  rw [hd2]
  refine List.mem_append_left _ ?_
  unfold creationStep
  dsimp only
  rw [if_pos ⟨hsome, hforce⟩]
  simp

/-- Without `--force`, a file's step never changes the content of a
clean-target path that already exists and is not the legacy file being
processed: if the step's own target coincides with it, the step skips. -/
theorem processFile_keep_C4 (cfg : Config) (st : RunState) (g : FPath)
    (rel0 : List Str) (t0 : Str)
    (hdry : cfg.dryRun = false) (hforce : cfg.force = false)
    (hne : cleanTargetIndex rel0 ≠ g)
    (hlk : lookupFS st.fs (cleanTargetIndex rel0) = some t0) :
    lookupFS (processFile cfg st g).fs (cleanTargetIndex rel0) = some t0 := by
  unfold processFile
  rw [if_neg (by simp [hdry])]
  rw [legacyStep_lookup_preserved cfg _ g _ hne (cleanTargetIndex_ne_bakPath _ _)]
  by_cases hT : cleanTargetIndex rel0 = cleanTargetIndex g.tail
  · unfold creationStep
    dsimp only
    rw [if_pos ⟨by rw [← hT, hlk]; rfl, hforce⟩]
    exact hlk
  · rw [creationStep_lookup_preserved cfg st g _ hT (cleanTargetIndex_ne_bakPath _ _)]
    exact hlk

theorem foldl_keep_C4 (cfg : Config) (rel0 : List Str) (t0 : Str)
    (hdry : cfg.dryRun = false) (hforce : cfg.force = false) :
    ∀ (l : List FPath) (st : RunState),
      (∀ g ∈ l, cleanTargetIndex rel0 ≠ g) →
      lookupFS st.fs (cleanTargetIndex rel0) = some t0 →
      lookupFS ((l.foldl (processFile cfg) st)).fs (cleanTargetIndex rel0) = some t0 := by
  intro l
  induction l with
  | nil => intro st _ hlk; exact hlk
  | cons g t ih =>
    intro st hg hlk
    rw [List.foldl_cons]
    exact ih _ (fun x hx => hg x (List.mem_cons_of_mem _ hx))
      (processFile_keep_C4 cfg st g rel0 t0 hdry hforce (hg g (List.mem_cons_self _ _)) hlk)

theorem foldl_preserved (cfg : Config) (p : FPath) :
    ∀ (l : List FPath) (st : RunState),
      (∀ g ∈ l, p ≠ cleanTargetIndex g.tail ∧ p ≠ bakPath (cleanTargetIndex g.tail) ∧
        p ≠ g ∧ p ≠ bakPath g) →
      lookupFS ((l.foldl (processFile cfg) st)).fs p = lookupFS st.fs p := by
  intro l
  induction l with
  | nil => intro st _; rfl
  | cons g t ih =>
    intro st hg
    rw [List.foldl_cons]
    obtain ⟨h1, h2, h3, h4⟩ := hg g (List.mem_cons_self _ _)
    rw [ih _ (fun x hx => hg x (List.mem_cons_of_mem _ hx)),
      processFile_lookup_preserved cfg st g p h1 h2 h3 h4]

/-- With `--force` and an existing target, a file's step backs the target
up (pre-overwrite content) and then overwrites it with the freshly
generated content. -/
theorem processFile_force_create (cfg : Config) (st : RunState) (f : FPath) (t0 : Str)
    (hdry : cfg.dryRun = false) (hforce : cfg.force = true)
    (hT : lookupFS st.fs (cleanTargetIndex f.tail) = some t0)
    (hfT : cleanTargetIndex f.tail ≠ f)
    (hfhtml : str ".html" <:+ f.getLast?.getD [])
    (hfne : f ≠ []) :
    lookupFS (processFile cfg st f).fs (cleanTargetIndex f.tail) =
      some ((addCanonicalToHtml ((lookupFS st.fs f).getD [])
        (cleanUrlOf cfg.domain f.tail)).1) ∧
    lookupFS (processFile cfg st f).fs (bakPath (cleanTargetIndex f.tail)) = some t0 := by
  have hbakT_ne_f : bakPath (cleanTargetIndex f.tail) ≠ f :=
    fun e => (html_last_ne_bakPath (cleanTargetIndex f.tail) hfhtml) e.symm
  have hbakT_ne_bakf : bakPath (cleanTargetIndex f.tail) ≠ bakPath f :=
    fun e => hfT (bakPath_inj (cleanTargetIndex_ne_nil f.tail) hfne e)
  have hcreate : (creationStep cfg st f).fs =
      writeFS (writeFS st.fs (bakPath (cleanTargetIndex f.tail))
        ((lookupFS st.fs (cleanTargetIndex f.tail)).getD []))
        (cleanTargetIndex f.tail)
        ((addCanonicalToHtml ((lookupFS st.fs f).getD [])
          (cleanUrlOf cfg.domain f.tail)).1) := by
    unfold creationStep
    dsimp only
    rw [if_neg (by rw [hforce]; rintro ⟨-, h⟩; exact Bool.noConfusion h),
      if_pos ⟨by rw [hT]; rfl, hforce⟩]
  unfold processFile
  rw [if_neg (by simp [hdry])]
  constructor
  · rw [legacyStep_lookup_preserved cfg _ f _ hfT (cleanTargetIndex_ne_bakPath _ _),
      hcreate, lookup_write_self]
  · rw [legacyStep_lookup_preserved cfg _ f _ hbakT_ne_f hbakT_ne_bakf, hcreate,
      lookup_write_ne _ _ _ _ (fun e => cleanTargetIndex_ne_bakPath f.tail (cleanTargetIndex f.tail) e.symm),
      lookup_write_self, hT]
    rfl

/-! ### Matcher soundness: decomposition of the subject at a match -/

theorem take_drop_glue (s : Str) (i a c : Nat) :
    (s.drop i).take a ++ (s.drop (i + a)).take c = (s.drop i).take (a + c) := by
  rw [List.take_add]
  congr 1
  rw [List.drop_drop]

theorem matchV_span {s : Str} {i b : Nat} {m : RMatch}
    (h : matchV s i b = some m) (hib : i ≤ b) :
    m.g1 ++ m.g2 ++ m.g3 = (s.drop i).take (m.stop - i) := by
  unfold matchV at h
  dsimp only at h
  split at h
  · split at h
    · split at h
      · rename_i h1 h2 h3
        cases h
        dsimp only
        generalize runFrom notQuote s (b + 6) = V
        generalize runFrom notGt s (b + 6 + V + 1) = C
        rw [List.append_assoc]
        rw [show s.drop (b + 6) = s.drop (i + (b + 6 - i)) from by congr 1; omega]
        rw [show s.drop (b + 6 + V) = s.drop (i + (b + 6 - i) + V) from by congr 1; omega]
        rw [take_drop_glue s (i + (b + 6 - i)) V (C + 2)]
        rw [show s.drop (i + (b + 6 - i)) = s.drop (i + (b + 6 - i)) from rfl]
        rw [take_drop_glue s i (b + 6 - i) (V + (C + 2))]
        congr 1
        omega
      · exact absurd h (by simp)
    · exact absurd h (by simp)
  · exact absurd h (by simp)

theorem tryB_sound {s : Str} {i b0 : Nat} {m : RMatch} :
    ∀ K, tryB s i b0 K = some m → ∃ d, d ≤ K ∧ matchV s i (b0 + d) = some m := by
  intro K
  induction K with
  | zero =>
    intro h
    exact ⟨0, Nat.le_refl 0, by simpa [tryB] using h⟩
  | succ K ih =>
    intro h
    unfold tryB at h
    split at h
    · rename_i hm
      cases h
      exact ⟨K + 1, Nat.le_refl _, hm⟩
    · obtain ⟨d, hd, hm⟩ := ih h
      exact ⟨d, by omega, hm⟩

theorem afterA_sound {s : Str} {i aEnd : Nat} {m : RMatch}
    (h : afterA s i aEnd = some m) :
    ∃ b, aEnd + 15 ≤ b ∧ matchV s i b = some m := by
  unfold afterA at h
  split at h
  · obtain ⟨d, -, hm⟩ := tryB_sound _ h
    exact ⟨aEnd + 15 + d, by omega, hm⟩
  · exact absurd h (by simp)

theorem tryA_sound {s : Str} {i a0 : Nat} {m : RMatch} :
    ∀ K, tryA s i a0 K = some m → ∃ aEnd, a0 ≤ aEnd ∧ afterA s i aEnd = some m := by
  intro K
  induction K with
  | zero =>
    intro h
    exact ⟨a0, Nat.le_refl _, by simpa [tryA] using h⟩
  | succ K ih =>
    intro h
    unfold tryA at h
    split at h
    · rename_i hm
      cases h
      exact ⟨a0 + (K + 1), by omega, hm⟩
    · obtain ⟨aEnd, ha, hm⟩ := ih h
      exact ⟨aEnd, ha, hm⟩

theorem matchAt_sound {s : Str} {i : Nat} {m : RMatch}
    (h : matchAt s i = some m) :
    ∃ b, i ≤ b ∧ matchV s i b = some m := by
  unfold matchAt at h
  split at h
  · obtain ⟨aEnd, ha, hA⟩ := tryA_sound _ h
    obtain ⟨b, hb, hm⟩ := afterA_sound hA
    exact ⟨b, by omega, hm⟩
  · exact absurd h (by simp)

theorem matchAt_span {s : Str} {i : Nat} {m : RMatch}
    (h : matchAt s i = some m) :
    m.g1 ++ m.g2 ++ m.g3 = (s.drop i).take (m.stop - i) := by
  obtain ⟨b, hib, hm⟩ := matchAt_sound h
  exact matchV_span hm hib

theorem searchFromGo_sound {s : Str} {m : RMatch} :
    ∀ (k i : Nat), searchFromGo s k i = some m →
      ∃ j, i ≤ j ∧ matchAt s j = some m := by
  intro k
  induction k with
  | zero => intro i h; exact absurd h (by simp [searchFromGo])
  | succ k ih =>
    intro i h
    unfold searchFromGo at h
    split at h
    · rename_i hm
      cases h
      exact ⟨i, Nat.le_refl _, hm⟩
    · obtain ⟨j, hj, hm⟩ := ih (i + 1) h
      exact ⟨j, by omega, hm⟩

theorem searchFrom_matchAt {s : Str} {i : Nat} {m : RMatch}
    (h : searchFrom s i = some m) : matchAt s m.start = some m := by
  obtain ⟨j, -, hm⟩ := searchFromGo_sound _ i h
  have hj := (matchAt_start_stop hm).1
  rw [hj]
  exact hm

/-- The subject splits at a match into the text before, the three
groups, and the text after. -/
theorem match_split {s : Str} {m : RMatch}
    (hm : matchAt s m.start = some m) :
    s = s.take m.start ++ m.g1 ++ m.g2 ++ m.g3 ++ s.drop m.stop := by
  have hb := matchAt_start_stop hm
  have hspan := matchAt_span hm
  rw [hb.1] at hspan
  have e2 : s.drop m.start =
      (s.drop m.start).take (m.stop - m.start) ++ s.drop m.stop := by
    have e3 := (List.take_append_drop (m.stop - m.start) (s.drop m.start)).symm
    rw [List.drop_drop, show m.start + (m.stop - m.start) = m.stop from by omega] at e3
    exact e3
  calc s = s.take m.start ++ s.drop m.start := (List.take_append_drop _ _).symm
    _ = s.take m.start ++ ((s.drop m.start).take (m.stop - m.start) ++ s.drop m.stop) := by
        rw [← e2]
    _ = s.take m.start ++ (m.g1 ++ m.g2 ++ m.g3 ++ s.drop m.stop) := by rw [← hspan]
    _ = s.take m.start ++ m.g1 ++ m.g2 ++ m.g3 ++ s.drop m.stop := by
        simp [List.append_assoc]

/-! ### Idempotence of the canonical injector on quote-free documents -/

theorem matchV_elim {s : Str} {i b : Nat} {m : RMatch} (h : matchV s i b = some m) :
    litAt s b (str "href=") = true ∧ isQuoteAt s (b + 5) = true ∧
    1 ≤ runFrom notQuote s (b + 6) ∧
    isQuoteAt s (b + 6 + runFrom notQuote s (b + 6)) = true ∧
    m.g2 = (s.drop (b + 6)).take (runFrom notQuote s (b + 6)) := by
  unfold matchV at h
  dsimp only at h
  split at h
  · split at h
    · split at h
      · rename_i h1 h2 h3
        cases h
        exact ⟨h1.1, h1.2, h2.1, h2.2, rfl⟩
      · exact absurd h (by simp)
    · exact absurd h (by simp)
  · exact absurd h (by simp)

theorem isQuoteAt_iff {s : Str} {j : Nat} :
    isQuoteAt s j = true ↔ ∃ c, s[j]? = some c ∧ isQuote c = true := by
  unfold isQuoteAt
  rw [charAt_getElem]
  cases hc : s[j]? <;> simp

theorem matchAt_none_of_quoteFree {s : Str}
    (hs : ∀ c ∈ s, isQuote c = false) (i : Nat) : matchAt s i = none := by
  cases hm : matchAt s i with
  | none => rfl
  | some m =>
    exfalso
    obtain ⟨b, -, hv⟩ := matchAt_sound hm
    obtain ⟨-, hq, -, -, -⟩ := matchV_elim hv
    obtain ⟨c, hc, hcq⟩ := isQuoteAt_iff.mp hq
    obtain ⟨hlt, heq⟩ := List.getElem?_eq_some.mp hc
    rw [hs c (heq ▸ List.getElem_mem hlt)] at hcq
    exact Bool.noConfusion hcq

theorem searchFromGo_none_all {s : Str} (h : ∀ j, matchAt s j = none) :
    ∀ (k i : Nat), searchFromGo s k i = none := by
  intro k
  induction k with
  | zero => intro i; rfl
  | succ k ih =>
    intro i
    unfold searchFromGo
    rw [h i]
    exact ih (i + 1)

theorem searchFrom_none_of_quoteFree {s : Str}
    (hs : ∀ c ∈ s, isQuote c = false) (i : Nat) : searchFrom s i = none :=
  searchFromGo_none_all (matchAt_none_of_quoteFree hs) _ i

theorem drop_shift (P X : Str) (k : Nat) :
    (P ++ X).drop (P.length + k) = X.drop k := by
  rw [← List.drop_drop, List.drop_left]

theorem litAt_shift (P X lit : Str) (k : Nat) :
    litAt (P ++ X) (P.length + k) lit = litAt X k lit := by
  unfold litAt
  rw [drop_shift]

theorem runFrom_shift (p : Char → Bool) (P X : Str) (k : Nat) :
    runFrom p (P ++ X) (P.length + k) = runFrom p X k := by
  unfold runFrom
  rw [drop_shift]

theorem charAt_shift (P X : Str) (k : Nat) :
    charAt (P ++ X) (P.length + k) = charAt X k := by
  rw [charAt_getElem, charAt_getElem]
  rw [List.getElem?_append_right (by omega)]
  congr 1
  omega

theorem isQuoteAt_shift (P X : Str) (k : Nat) :
    isQuoteAt (P ++ X) (P.length + k) = isQuoteAt X k := by
  unfold isQuoteAt
  rw [charAt_shift]

theorem isCharAt_shift (P X : Str) (k : Nat) (c : Char) :
    isCharAt (P ++ X) (P.length + k) c = isCharAt X k c := by
  unfold isCharAt
  rw [charAt_shift]

theorem takeWhile_all_stop {p : Char → Bool} {u : Str} (q : Char) (rest : Str)
    (hu : ∀ c ∈ u, p c = true) (hq : p q = false) :
    (u ++ q :: rest).takeWhile p = u := by
  induction u with
  | nil => simp [List.takeWhile, hq]
  | cons c t ih =>
    rw [List.cons_append, List.takeWhile_cons_of_pos (hu c (List.mem_cons_self _ _))]
    rw [ih (fun x hx => hu x (List.mem_cons_of_mem _ hx))]

/-- The shape of a document right after the insertion branch has added
the canonical tag: quote-free prefix, the tag literal around the URL,
quote-free suffix. -/
def shapeT (P url S : Str) : Str :=
  P ++ (str "<link rel=\"canonical\" href=\"" ++ (url ++ (str "\">" ++ S)))

theorem firstApp_shape (content url : Str)
    (hq : ∀ c ∈ content, isQuote c = false)
    (hocc : occCount content (str "</head>") ≤ 1) :
    ∃ P S, (addCanonicalToHtml content url).1 = shapeT P url S ∧
      (∀ c ∈ P, isQuote c = false) ∧ (∀ c ∈ S, isQuote c = false) := by
  have hnone : searchFrom content 0 = none := searchFrom_none_of_quoteFree hq 0
  unfold addCanonicalToHtml
  rw [hnone]
  dsimp only
  have e1 : (str "  <link rel=\"canonical\" href=\"" : Str) =
      str "  " ++ str "<link rel=\"canonical\" href=\"" := rfl
  have e2 : (str "\">\n" : Str) = str "\">" ++ str "\n" := rfl
  by_cases hc : pyContains content (str "</head>") = true
  · rw [if_pos hc]
    obtain ⟨x0, x1, hs, hr⟩ := pyReplace_single (by decide) hc hocc
    refine ⟨x0 ++ str "  ", str "\n</head>" ++ x1, ?_, ?_, ?_⟩
    · show pyReplace content (str "</head>") _ = _
      rw [hr]
      unfold shapeT
      rw [e1, e2, show (str "\n</head>" : Str) = str "\n" ++ str "</head>" from rfl]
      simp [List.append_assoc]
    · intro c hcm
      rcases List.mem_append.mp hcm with hm | hm
      · exact hq c (by rw [hs]; exact List.mem_append_left _ (List.mem_append_left _ hm))
      · exact (by decide : ∀ c ∈ (str "  " : Str), isQuote c = false) c hm
    · intro c hcm
      rcases List.mem_append.mp hcm with hm | hm
      · exact (by decide : ∀ c ∈ (str "\n</head>" : Str), isQuote c = false) c hm
      · exact hq c (by rw [hs]; exact List.mem_append_right _ hm)
  · rw [if_neg hc]
    refine ⟨str "  ", str "\n" ++ content, ?_, by decide, ?_⟩
    · show (str "  <link rel=\"canonical\" href=\"" ++ url ++ str "\">\n") ++ content = _
      unfold shapeT
      rw [e1, e2]
      simp [List.append_assoc]
    · intro c hcm
      rcases List.mem_append.mp hcm with hm | hm
      · exact (by decide : ∀ c ∈ (str "\n" : Str), isQuote c = false) c hm
      · exact hq c hm

/-- In a quote-free context, the only quote characters of the shaped
document are the four quotes of the inserted canonical tag. -/
theorem quotes_in_shape {P url S : Str}
    (hP : ∀ c ∈ P, isQuote c = false)
    (hu : ∀ c ∈ url, isQuote c = false)
    (hS : ∀ c ∈ S, isQuote c = false)
    {j : Nat} (hj : isQuoteAt (shapeT P url S) j = true) :
    j = P.length + 10 ∨ j = P.length + 20 ∨ j = P.length + 27 ∨
      j = P.length + 28 + url.length := by
  obtain ⟨c, hc, hcq⟩ := isQuoteAt_iff.mp hj
  unfold shapeT at hc
  have hlen1 : (str "<link rel=\"canonical\" href=\"" : Str).length = 28 := rfl
  have hlen2 : (str "\">" : Str).length = 2 := rfl
  by_cases h1 : j < P.length
  · exfalso
    rw [List.getElem?_append_left h1] at hc
    obtain ⟨hlt, heq⟩ := List.getElem?_eq_some.mp hc
    rw [hP c (heq ▸ List.getElem_mem hlt)] at hcq
    exact Bool.noConfusion hcq
  · push_neg at h1
    rw [List.getElem?_append_right h1] at hc
    by_cases h2 : j - P.length < 28
    · rw [List.getElem?_append_left (by rw [hlen1]; exact h2)] at hc
      have hqa : isQuoteAt (str "<link rel=\"canonical\" href=\"") (j - P.length) = true := by
        unfold isQuoteAt
        rw [charAt_getElem, hc]
        simpa using hcq
      have hdec : ∀ k : Nat, k < 28 →
          isQuoteAt (str "<link rel=\"canonical\" href=\"") k = true →
          (k = 10 ∨ k = 20 ∨ k = 27) := by decide
      rcases hdec (j - P.length) h2 hqa with h | h | h
      · left; omega
      · right; left; omega
      · right; right; left; omega
    · push_neg at h2
      rw [List.getElem?_append_right (by rw [hlen1]; exact h2), hlen1] at hc
      by_cases h3 : j - P.length - 28 < url.length
      · exfalso
        rw [List.getElem?_append_left h3] at hc
        obtain ⟨hlt, heq⟩ := List.getElem?_eq_some.mp hc
        rw [hu c (heq ▸ List.getElem_mem hlt)] at hcq
        exact Bool.noConfusion hcq
      · push_neg at h3
        rw [List.getElem?_append_right h3] at hc
        by_cases h4 : j - P.length - 28 - url.length < 2
        · rw [List.getElem?_append_left (by rw [hlen2]; exact h4)] at hc
          have hqa : isQuoteAt (str "\">") (j - P.length - 28 - url.length) = true := by
            unfold isQuoteAt
            rw [charAt_getElem, hc]
            simpa using hcq
          have hdec : ∀ k : Nat, k < 2 →
              isQuoteAt (str "\">") k = true → k = 0 := by decide
          have h0 := hdec _ h4 hqa
          right; right; right
          omega
        · exfalso
          push_neg at h4
          rw [List.getElem?_append_right (by rw [hlen2]; exact h4)] at hc
          obtain ⟨hlt, heq⟩ := List.getElem?_eq_some.mp hc
          rw [hS c (heq ▸ List.getElem_mem hlt)] at hcq
          exact Bool.noConfusion hcq

theorem shape_drop28 (url S : Str) :
    (str "<link rel=\"canonical\" href=\"" ++ (url ++ (str "\">" ++ S))).drop 28 =
      url ++ (str "\">" ++ S) := by
  rw [show (28 : Nat) = (str "<link rel=\"canonical\" href=\"" : Str).length from rfl,
    List.drop_left]

theorem shape_run28 {url : Str} (S : Str) (hu : ∀ c ∈ url, isQuote c = false) :
    runFrom notQuote
      (str "<link rel=\"canonical\" href=\"" ++ (url ++ (str "\">" ++ S))) 28 =
      url.length := by
  unfold runFrom
  rw [shape_drop28]
  rw [show url ++ (str "\">" ++ S) = url ++ ('"' :: ('>' :: S)) from rfl]
  rw [takeWhile_all_stop '"' ('>' :: S)
    (fun c hc => by simpa [notQuote] using hu c hc) rfl]

/-- Pinning: every match the pattern can find in the shaped document has
the inserted URL as its captured href value — the only viable opening
quote is the one right after the inserted `href=`. -/
theorem g2_pinned {P url S : Str}
    (hP : ∀ c ∈ P, isQuote c = false)
    (hu : ∀ c ∈ url, isQuote c = false)
    (hS : ∀ c ∈ S, isQuote c = false)
    (j : Nat) (m : RMatch)
    (hm : matchAt (shapeT P url S) j = some m) : m.g2 = url := by
  obtain ⟨b, -, hv⟩ := matchAt_sound hm
  obtain ⟨hlit, hq, hvpos, hq2, hg2⟩ := matchV_elim hv
  have hcase := quotes_in_shape hP hu hS hq
  have hlen1 : (str "<link rel=\"canonical\" href=\"" : Str).length = 28 := rfl
  rcases hcase with h | h | h | h
  · exfalso
    have hb : b = P.length + 5 := by omega
    subst hb
    rw [show shapeT P url S =
        P ++ (str "<link rel=\"canonical\" href=\"" ++ (url ++ (str "\">" ++ S))) from rfl,
      litAt_shift] at hlit
    exact Bool.noConfusion ((rfl :
      litAt (str "<link rel=\"canonical\" href=\"" ++ (url ++ (str "\">" ++ S))) 5
        (str "href=") = false) ▸ hlit)
  · exfalso
    have hb : b = P.length + 15 := by omega
    subst hb
    rw [show shapeT P url S =
        P ++ (str "<link rel=\"canonical\" href=\"" ++ (url ++ (str "\">" ++ S))) from rfl,
      litAt_shift] at hlit
    exact Bool.noConfusion ((rfl :
      litAt (str "<link rel=\"canonical\" href=\"" ++ (url ++ (str "\">" ++ S))) 15
        (str "href=") = false) ▸ hlit)
  · -- the real case: the opening quote is the tag's own `href="` quote
    have hb : b = P.length + 22 := by omega
    subst hb
    rw [show P.length + 22 + 6 = P.length + 28 from by omega] at hg2
    rw [show shapeT P url S =
        P ++ (str "<link rel=\"canonical\" href=\"" ++ (url ++ (str "\">" ++ S))) from rfl,
      runFrom_shift, drop_shift] at hg2
    rw [shape_run28 S hu, shape_drop28] at hg2
    rw [hg2]
    rw [show url ++ (str "\">" ++ S) = url ++ ('"' :: ('>' :: S)) from rfl]
    rw [show url.length = url.length from rfl]
    exact List.take_left url _
  · exfalso
    have hpos := quotes_in_shape hP hu hS hq2
    omega

theorem tryB_complete {s : Str} {i b0 d : Nat} (hd : matchV s i (b0 + d) ≠ none) :
    ∀ K, d ≤ K → tryB s i b0 K ≠ none := by
  intro K
  induction K with
  | zero =>
    intro h0
    have hd0 : d = 0 := by omega
    subst hd0
    simpa [tryB] using hd
  | succ K ih =>
    intro hdK
    unfold tryB
    cases hm : matchV s i (b0 + (K + 1)) with
    | some m => simp
    | none =>
      by_cases he : d = K + 1
      · subst he
        exact absurd hm hd
      · exact ih (by omega)

theorem tryA_complete {s : Str} {i a0 k : Nat} (hk : afterA s i (a0 + k) ≠ none) :
    ∀ K, k ≤ K → tryA s i a0 K ≠ none := by
  intro K
  induction K with
  | zero =>
    intro h0
    have hk0 : k = 0 := by omega
    subst hk0
    simpa [tryA] using hk
  | succ K ih =>
    intro hkK
    unfold tryA
    cases hm : afterA s i (a0 + (K + 1)) with
    | some m => simp
    | none =>
      by_cases he : k = K + 1
      · subst he
        exact absurd hm hk
      · exact ih (by omega)

theorem searchFromGo_complete {s : Str} {j : Nat} (hj : matchAt s j ≠ none) :
    ∀ (k i : Nat), i ≤ j → j < i + k → searchFromGo s k i ≠ none := by
  intro k
  induction k with
  | zero => intro i h1 h2; omega
  | succ k ih =>
    intro i h1 h2
    unfold searchFromGo
    cases hm : matchAt s i with
    | some m => simp
    | none =>
      have hne : i ≠ j := fun he => hj (he ▸ hm)
      exact ih (i + 1) (by omega) (by omega)

theorem runFrom_pos {p : Char → Bool} {X : Str} {k : Nat} {c : Char} {Z : Str}
    (hd : X.drop k = c :: Z) (hc : p c = true) : 1 ≤ runFrom p X k := by
  unfold runFrom
  rw [hd, List.takeWhile_cons_of_pos hc]
  simp

/-- The inserted tag itself is found by the backtracking matcher at the
position right after the quote-free prefix. -/
theorem shape_has_match {P url S : Str} (hune : url ≠ [])
    (hu : ∀ c ∈ url, isQuote c = false) :
    matchAt (shapeT P url S) P.length ≠ none := by
  have hX : shapeT P url S =
      P ++ (str "<link rel=\"canonical\" href=\"" ++ (url ++ (str "\">" ++ S))) := rfl
  set X : Str := str "<link rel=\"canonical\" href=\"" ++ (url ++ (str "\">" ++ S)) with hXdef
  have hL : 1 ≤ url.length := List.length_pos.mpr hune
  -- the index-normalized facts about the shaped document
  have hlit0 : litAt (shapeT P url S) P.length (str "<link") = true := by
    rw [hX]
    have := litAt_shift P X (str "<link") 0
    simp only [Nat.add_zero] at this
    rw [this]
    rfl
  have hdropX : ∀ k : Nat, X.drop (28 + k) = (url ++ ('"' :: ('>' :: S))).drop k := by
    intro k
    rw [show (28 + k : Nat) = 28 + k from rfl, ← List.drop_drop, shape_drop28]
    rfl
  have hq4 : isQuoteAt (shapeT P url S) (P.length + (28 + url.length)) = true := by
    rw [hX, isQuoteAt_shift]
    unfold isQuoteAt
    rw [charAt_getElem, ← List.head?_drop, hdropX url.length]
    rw [show (url ++ ('"' :: ('>' :: S))).drop url.length = '"' :: ('>' :: S) from
      List.drop_left url _]
    rfl
  have hrun28 : runFrom notQuote (shapeT P url S) (P.length + 28) = url.length := by
    rw [hX, runFrom_shift]
    exact shape_run28 S hu
  have hcrun : runFrom notGt (shapeT P url S) (P.length + (29 + url.length)) = 0 := by
    rw [hX, runFrom_shift]
    unfold runFrom
    rw [show (29 + url.length : Nat) = 28 + (1 + url.length) from by omega, hdropX]
    rw [show (url ++ ('"' :: ('>' :: S))).drop (1 + url.length) = '>' :: S from by
      rw [show (1 + url.length : Nat) = url.length + 1 from by omega, ← List.drop_drop,
        List.drop_left]
      rfl]
    rfl
  have hgtc : isCharAt (shapeT P url S) (P.length + (29 + url.length)) '>' = true := by
    rw [hX, isCharAt_shift]
    unfold isCharAt
    rw [charAt_getElem, ← List.head?_drop,
      show (29 + url.length : Nat) = 28 + (1 + url.length) from by omega, hdropX]
    rw [show (url ++ ('"' :: ('>' :: S))).drop (1 + url.length) = '>' :: S from by
      rw [show (1 + url.length : Nat) = url.length + 1 from by omega, ← List.drop_drop,
        List.drop_left]
      rfl]
    rfl
  -- the deterministic tail succeeds with `href=` at offset 22
  have hmv : matchV (shapeT P url S) P.length (P.length + 22) ≠ none := by
    unfold matchV
    rw [show P.length + 22 + 5 = P.length + 27 from by omega,
      show P.length + 22 + 6 = P.length + 28 from by omega]
    rw [if_pos ⟨by rw [hX, litAt_shift]; rfl, by rw [hX, isQuoteAt_shift]; rfl⟩]
    dsimp only
    rw [hrun28]
    rw [if_pos ⟨hL, by
      rw [show P.length + 28 + url.length = P.length + (28 + url.length) from by omega]
      exact hq4⟩]
    rw [show P.length + 28 + url.length + 1 = P.length + (29 + url.length) from by omega]
    rw [hcrun]
    rw [if_pos (by
      rw [show P.length + (29 + url.length) + 0 = P.length + (29 + url.length) from rfl]
      exact hgtc)]
    simp
  -- backtracking reaches offset 22 for `href=` and offset 6 for `rel=`
  have hafter : afterA (shapeT P url S) P.length (P.length + 6) ≠ none := by
    unfold afterA
    rw [show P.length + 6 + 4 = P.length + 10 from by omega,
      show P.length + 6 + 5 = P.length + 11 from by omega,
      show P.length + 6 + 14 = P.length + 20 from by omega,
      show P.length + 6 + 15 = P.length + 21 from by omega]
    rw [if_pos ⟨by rw [hX, litAt_shift]; rfl, by rw [hX, isQuoteAt_shift]; rfl,
      by rw [hX, litAt_shift]; rfl, by rw [hX, isQuoteAt_shift]; rfl⟩]
    have hb1 : 1 ≤ runFrom notGt (shapeT P url S) (P.length + 21) := by
      rw [hX, runFrom_shift]
      exact runFrom_pos (show X.drop 21 = ' ' ::
        (str "href=\"" ++ (url ++ (str "\">" ++ S))) from rfl) rfl
    have : matchV (shapeT P url S) P.length (P.length + 21 + 1) ≠ none := by
      rw [show P.length + 21 + 1 = P.length + 22 from by omega]
      exact hmv
    exact tryB_complete this _ hb1
  have ha1 : 1 ≤ runFrom notGt (shapeT P url S) (P.length + 5) := by
    rw [hX, runFrom_shift]
    exact runFrom_pos (show X.drop 5 = ' ' ::
      (str "rel=\"canonical\" href=\"" ++ (url ++ (str "\">" ++ S))) from rfl) rfl
  unfold matchAt
  rw [if_pos hlit0]
  have : afterA (shapeT P url S) P.length (P.length + 5 + 1) ≠ none := by
    rw [show P.length + 5 + 1 = P.length + 6 from by omega]
    exact hafter
  exact tryA_complete this _ ha1

theorem searchFrom_zero_some {s : Str} {j : Nat}
    (hj : matchAt s j ≠ none) (hjl : j ≤ s.length) : searchFrom s 0 ≠ none := by
  unfold searchFrom
  exact searchFromGo_complete hj (s.length + 1 - 0) 0 (by omega) (by omega)

/-- If every match captures exactly `url`, substituting `url` back is the
identity. -/
theorem subFromGo_id {s url : Str}
    (hpin : ∀ (j : Nat) (m : RMatch), matchAt s j = some m → m.g2 = url) :
    ∀ (k i : Nat), s.length + 1 - i ≤ k → subFromGo s url k i = s.drop i := by
  intro k
  induction k with
  | zero => intro i _; rfl
  | succ k ih =>
    intro i hk
    show (match searchFrom s i with
      | none => s.drop i
      | some m =>
          (s.drop i).take (m.start - i) ++ m.g1 ++ url ++ m.g3 ++ subFromGo s url k m.stop) =
      s.drop i
    cases hm : searchFrom s i with
    | none => rfl
    | some m =>
      dsimp only
      have hb := searchFrom_start_stop hm
      have hma := searchFrom_matchAt hm
      have hg2 := hpin m.start m hma
      have hspan := matchAt_span hma
      rw [(matchAt_start_stop hma).1] at hspan
      rw [ih m.stop (by omega)]
      rw [← hg2]
      have e1 : s.drop i = (s.drop i).take (m.start - i) ++ s.drop m.start := by
        have := (List.take_append_drop (m.start - i) (s.drop i)).symm
        rw [List.drop_drop, show i + (m.start - i) = m.start from by omega] at this
        exact this
      have e2 : s.drop m.start =
          (s.drop m.start).take (m.stop - m.start) ++ s.drop m.stop := by
        have := (List.take_append_drop (m.stop - m.start) (s.drop m.start)).symm
        rw [List.drop_drop, show m.start + (m.stop - m.start) = m.stop from by omega] at this
        exact this
      conv_rhs => rw [e1, e2, ← hspan]
      simp [List.append_assoc]

theorem subFrom_id {s url : Str}
    (hpin : ∀ (j : Nat) (m : RMatch), matchAt s j = some m → m.g2 = url) :
    subFrom s url 0 = s := by
  unfold subFrom
  rw [subFromGo_id hpin (s.length + 1 - 0) 0 (by omega)]
  rfl

/-! ## Claims -/

/-- Claim C1, counterexample.  A discovered page file named `'.html'`
(pathlib's `rglob('*.html')` does match hidden names) ends in `.html` and
is not the root-level `index.html`, yet its computed clean target is
`'.html/index.html'` rather than the claimed `dirname/basename-stripped/
index.html` (which is `'index.html'`, the stripped basename being empty):
CPython's `with_suffix('')` treats `'.html'` as a suffix-less dot-file
and does not strip it. -/
theorem claim_C1_counterexample :
    (str ".html").isSuffixOf (([str ".html"] : List Str).getLast?.getD []) = true ∧
      ([str ".html"] : List Str) ≠ [str "index.html"] ∧
      cleanTargetIndex [str ".html"] ≠ specCleanTarget [str ".html"] := by
  decide

/-- Claim C1, amended: for every page path ending in `.html` whose last
component is not the bare dot-file name `'.html'` and that is not the
root-level `index.html`, the computed clean target is
`dirname(p)/basename(p without .html)/index.html` under the site root. -/
theorem claim_C1 (rel : List Str)
    (hsuf : (str ".html").isSuffixOf (rel.getLast?.getD []) = true)
    (hdot : rel.getLast?.getD [] ≠ str ".html")
    (hidx : rel ≠ [str "index.html"]) :
    cleanTargetIndex rel = specCleanTarget rel := by
  have hs : str ".html" <:+ rel.getLast?.getD [] := by
    simpa using hsuf
  unfold cleanTargetIndex
  rw [if_neg (relNoSuff_ne_index hs hidx)]
  unfold specCleanTarget strippedParts
  rw [pyStem_html hs hdot]

/-- Witness for the amended claim C1, at `pages/guides/seo.html`. -/
theorem claim_C1_witness :
    ((str ".html").isSuffixOf (([str "guides", str "seo.html"] : List Str).getLast?.getD []) = true ∧
        ([str "guides", str "seo.html"] : List Str).getLast?.getD [] ≠ str ".html" ∧
        ([str "guides", str "seo.html"] : List Str) ≠ [str "index.html"]) ∧
      cleanTargetIndex [str "guides", str "seo.html"] = specCleanTarget [str "guides", str "seo.html"] :=
  ⟨by decide, claim_C1 [str "guides", str "seo.html"] (by decide) (by decide) (by decide)⟩

/-- Claim C2: the root-level `index.html` maps to the site root: its
clean target is the top-level `index.html` (not an `index/`
subdirectory), its target directory is the site root itself, and its
canonical URL is the bare domain (trailing slashes stripped) plus `/`. -/
theorem claim_C2 :
    ∀ domain : Str,
      cleanTargetIndex [str "index.html"] = [str "index.html"] ∧
      cleanTargetDir [str "index.html"] = [] ∧
      cleanUrlOf domain [str "index.html"] = rstripSlash domain ++ str "/" ∧
      cleanTargetIndex [str "index.html"] ≠ [str "index", str "index.html"] := by
  intro domain
  have h : relNoSuffStr [str "index.html"] = str "index" := by decide
  refine ⟨?_, ?_, ?_, ?_⟩
  · unfold cleanTargetIndex
    rw [if_pos h]
  · unfold cleanTargetDir
    rw [if_pos h]
  · unfold cleanUrlOf
    rw [if_pos h]
  · unfold cleanTargetIndex
    rw [if_pos h]
    decide

/-- Claim C3: in dry-run mode (the default), a run never creates or
modifies any file: the filesystem after `run` is the one before it,
whatever the other flags are. -/
theorem claim_C3 (cfg : Config) (fs : FS) (hdry : cfg.dryRun = true) :
    (runScript cfg fs).fs = fs := by
  unfold runScript
  have key : ∀ (l : List FPath) (st : RunState),
      (l.foldl (processFile cfg) st).fs = st.fs := by
    intro l
    induction l with
    | nil => intro st; rfl
    | cons f t ih =>
      intro st
      rw [List.foldl_cons, ih]
      unfold processFile
      rw [hdry]
      simp
  rw [key]

/-- Witness for claim C3: a dry run over a one-page filesystem with every
other flag set leaves the filesystem untouched. -/
theorem claim_C3_witness :
    (⟨true, true, true, str "meta", str "https://gotoolly.com", true⟩ : Config).dryRun = true ∧
      (runScript ⟨true, true, true, str "meta", str "https://gotoolly.com", true⟩
          [([str "pages", str "a.html"], str "</head>")]).fs =
        [([str "pages", str "a.html"], str "</head>")] :=
  ⟨rfl, claim_C3 ⟨true, true, true, str "meta", str "https://gotoolly.com", true⟩
      [([str "pages", str "a.html"], str "</head>")] rfl⟩

/-- Claim C8, counterexample.  The document
`<link rel="canonical" href="">\n</head>` already contains a canonical
link tag, but its href value is empty, which the pattern's `[^"']+`
cannot match: instead of replacing the tag's URL attribute value, the
injector inserts a second canonical tag before `</head>` and leaves the
old `href=""` in place. -/
theorem claim_C8_counterexample :
    (addCanonicalToHtml (str "<link rel=\"canonical\" href=\"\">\n</head>") (str "x")).1 =
      str "<link rel=\"canonical\" href=\"\">\n  <link rel=\"canonical\" href=\"x\">\n</head>" ∧
    pyContains (addCanonicalToHtml (str "<link rel=\"canonical\" href=\"\">\n</head>") (str "x")).1
      (str "href=\"\"") = true ∧
    (addCanonicalToHtml (str "<link rel=\"canonical\" href=\"\">\n</head>") (str "x")).1 ≠
      str "<link rel=\"canonical\" href=\"x\">\n</head>" := by
  decide

/-- Claim C8, amended: for every document in which the canonical pattern
matches — leftmost match `m`, with no further match after it — the
injector rewrites exactly the matched href value to the new URL: the
text before the match, the tag's other attributes and whitespace
(groups 1 and 3) and the text after the match are all preserved, and
`changed = true` iff the matched href value differed from the URL.
(Documents whose canonical tag the pattern cannot match, e.g. an empty
href value, fall to the insertion branch instead.) -/
theorem claim_C8 (content url : Str) (m : RMatch)
    (hm : searchFrom content 0 = some m)
    (hafter : searchFrom content m.stop = none) :
    (addCanonicalToHtml content url).1 =
      content.take m.start ++ m.g1 ++ url ++ m.g3 ++ content.drop m.stop ∧
    ((addCanonicalToHtml content url).2 = true ↔ m.g2 ≠ url) := by
  have hsplit := match_split (searchFrom_matchAt hm)
  have hn : subFrom content url 0 =
      content.take m.start ++ m.g1 ++ url ++ m.g3 ++ content.drop m.stop := by
    rw [subFrom_eq, hm]
    dsimp only
    rw [subFrom_eq, hafter]
    simp [List.append_assoc]
  have hiff : subFrom content url 0 = content ↔ m.g2 = url := by
    constructor
    · intro he
      rw [hn] at he
      conv_rhs at he => rw [hsplit]
      simp only [List.append_assoc] at he
      have h1 := List.append_cancel_left he
      have h2 := List.append_cancel_left h1
      have h3 : url ++ (m.g3 ++ content.drop m.stop) =
          m.g2 ++ (m.g3 ++ content.drop m.stop) := h2
      have h4 : (url ++ m.g3) ++ content.drop m.stop =
          (m.g2 ++ m.g3) ++ content.drop m.stop := by
        simpa [List.append_assoc] using h3
      have h5 := List.append_cancel_right h4
      have h6 := List.append_cancel_right h5
      exact h6.symm
    · intro he
      rw [hn, ← he]
      conv_rhs => rw [hsplit]
  have hone : addCanonicalToHtml content url =
      (subFrom content url 0, decide (subFrom content url 0 ≠ content)) := by
    unfold addCanonicalToHtml
    rw [hm]
  rw [hone]
  refine ⟨hn, ?_⟩
  simp only [decide_eq_true_iff]
  exact not_congr hiff

/-- Witness for the amended claim C8, at a concrete document holding one
canonical tag with value `old`, rewritten to `new`. -/
theorem claim_C8_witness :
    (searchFrom (str "<link rel=\"canonical\" href=\"old\">") 0 =
        some ⟨0, str "<link rel=\"canonical\" href=\"", str "old", str "\">", 33⟩ ∧
      searchFrom (str "<link rel=\"canonical\" href=\"old\">") 33 = none) ∧
    ((addCanonicalToHtml (str "<link rel=\"canonical\" href=\"old\">") (str "new")).1 =
        str "<link rel=\"canonical\" href=\"new\">" ∧
      (addCanonicalToHtml (str "<link rel=\"canonical\" href=\"old\">") (str "new")).2 = true) :=
  ⟨⟨by decide, by decide⟩,
    ⟨(claim_C8 (str "<link rel=\"canonical\" href=\"old\">") (str "new")
        ⟨0, str "<link rel=\"canonical\" href=\"", str "old", str "\">", 33⟩
        (by decide) (by decide)).1.trans (by decide),
      (claim_C8 (str "<link rel=\"canonical\" href=\"old\">") (str "new")
        ⟨0, str "<link rel=\"canonical\" href=\"", str "old", str "\">", 33⟩
        (by decide) (by decide)).2.mpr (by decide)⟩⟩

/-- Claim C9 (code bug): a page file named `'...html'` is discovered by
the glob, its stem under CPython's `with_suffix('')` is `'..'`, so the
computed clean target directory escapes the site root, and an apply-mode
run silently writes `ROOT/../index.html` — no detection, no fatal error,
the run completes normally. -/
theorem claim_C9_escape :
    isPageFile [str "pages", str "...html"] = true ∧
      cleanTargetDir [str "...html"] = [str ".."] ∧
      escapesRoot (cleanTargetDir [str "...html"]) = true ∧
      lookupFS (runScript ⟨false, false, false, str "meta", [], false⟩
          [([str "pages", str "...html"], [])]).fs
        [str "..", str "index.html"] ≠ none := by
  decide

/-- Claim C10: the meta-refresh target injected into a legacy page is
always `'/'` plus the extension-stripped relative path, with no special
case for the root index: `pages/index.html` gets the redirect target
`/index` (not `/`), even though its clean copy's canonical URL is the
bare domain plus `/`; a concrete apply-mode run with `--redirect-old`
shows the injected instruction. -/
theorem claim_C10 :
    (∀ rel : List Str,
        legacyRedirectOf rel = str "/" ++ pyReplace (relNoSuffStr rel) (str "\\") (str "/")) ∧
      legacyRedirectOf [str "index.html"] = str "/index" ∧
      legacyRedirectOf [str "index.html"] ≠ str "/" ∧
      (∀ domain : Str, cleanUrlOf domain [str "index.html"] = rstripSlash domain ++ str "/") ∧
      lookupFS (runScript ⟨false, false, true, str "meta", [], false⟩
          [([str "pages", str "index.html"], str "</head>")]).fs
          [str "pages", str "index.html"] =
        some (str "  <meta http-equiv=\"refresh\" content=\"0; url=/index\">\n</head>") := by
  refine ⟨fun rel => rfl, by decide, by decide, fun domain => (claim_C2 domain).2.2.1, ?_⟩
  decide

/-- Claim C4, counterexample.  In apply mode without `--force`, with
`--canonical-old` set, and a page nested as `pages/pages/x.html`: the
clean target of `pages/pages/x.html` is `pages/x/index.html`, which
exists at the start of the run, so the file is reported skipped — yet at
the end of the run that target's content has changed byte-for-byte,
because `pages/x/index.html` is itself a discovered legacy page and the
legacy-mutation pass rewrites it in place. -/
theorem claim_C4_counterexample :
    lookupFS [([str "pages", str "pages", str "x.html"], []),
        ([str "pages", str "x", str "index.html"], str "</head>")]
      [str "pages", str "x", str "index.html"] = some (str "</head>") ∧
    Msg.skip [str "pages", str "x", str "index.html"] ∈
      (runScript ⟨false, true, false, str "meta", [], false⟩
        [([str "pages", str "pages", str "x.html"], []),
          ([str "pages", str "x", str "index.html"], str "</head>")]).log ∧
    lookupFS (runScript ⟨false, true, false, str "meta", [], false⟩
        [([str "pages", str "pages", str "x.html"], []),
          ([str "pages", str "x", str "index.html"], str "</head>")]).fs
      [str "pages", str "x", str "index.html"] ≠ some (str "</head>") := by
  decide

/-- Claim C4, amended: in apply mode without `--force`, for every page
file whose clean target exists at the start of the run, the run logs the
file as skipped and — provided the target path is not itself one of the
discovered legacy pages (which only happens under a `pages/pages/…`
nesting) — leaves the target's content byte-for-byte unchanged; the run
is a total function, so the skip never raises and processing always
continues. -/
theorem claim_C4 (cfg : Config) (fs : FS) (f : FPath) (t0 : Str)
    (hdry : cfg.dryRun = false) (hforce : cfg.force = false)
    (hf : f ∈ discover fs)
    (hT : lookupFS fs (cleanTargetIndex f.tail) = some t0)
    (hTnd : cleanTargetIndex f.tail ∉ discover fs) :
    Msg.skip (cleanTargetIndex f.tail) ∈ (runScript cfg fs).log ∧
      lookupFS (runScript cfg fs).fs (cleanTargetIndex f.tail) = some t0 := by
  obtain ⟨l1, l2, hsplit⟩ := List.append_of_mem hf
  have hTne : ∀ g ∈ discover fs, cleanTargetIndex f.tail ≠ g :=
    fun g hg he => hTnd (he ▸ hg)
  have hmem1 : ∀ g ∈ l1, g ∈ discover fs := by
    intro g hg
    rw [hsplit]
    exact List.mem_append_left _ hg
  have hmem2 : ∀ g ∈ l2, g ∈ discover fs := by
    intro g hg
    rw [hsplit]
    exact List.mem_append_right _ (List.mem_cons_of_mem _ hg)
  unfold runScript
  dsimp only
  rw [hsplit, List.foldl_append, List.foldl_cons]
  have hkeep1 : lookupFS (l1.foldl (processFile cfg) ⟨fs, [], [], []⟩).fs
      (cleanTargetIndex f.tail) = some t0 :=
    foldl_keep_C4 cfg f.tail t0 hdry hforce l1 _
      (fun g hg => hTne g (hmem1 g hg)) hT
  have hskipmem : Msg.skip (cleanTargetIndex f.tail) ∈
      (processFile cfg (l1.foldl (processFile cfg) ⟨fs, [], [], []⟩) f).log :=
    processFile_skip_mem cfg _ f hdry hforce (by rw [hkeep1]; rfl)
  have hkeepf : lookupFS
      (processFile cfg (l1.foldl (processFile cfg) ⟨fs, [], [], []⟩) f).fs
      (cleanTargetIndex f.tail) = some t0 :=
    processFile_keep_C4 cfg _ f f.tail t0 hdry hforce (hTne f hf) hkeep1
  constructor
  · exact List.mem_append_left _ (foldl_log_mem cfg l2 _ hskipmem)
  · exact foldl_keep_C4 cfg f.tail t0 hdry hforce l2 _
      (fun g hg => hTne g (hmem2 g hg)) hkeepf

/-- Witness for the amended claim C4: `pages/a.html` whose target
`a/index.html` already holds `keep`; the run logs the skip and preserves
the content. -/
theorem claim_C4_witness :
    ((⟨false, false, false, str "meta", [], false⟩ : Config).dryRun = false ∧
      (⟨false, false, false, str "meta", [], false⟩ : Config).force = false ∧
      [str "pages", str "a.html"] ∈ discover
        [([str "pages", str "a.html"], str "x"), ([str "a", str "index.html"], str "keep")] ∧
      lookupFS [([str "pages", str "a.html"], str "x"), ([str "a", str "index.html"], str "keep")]
        (cleanTargetIndex ([str "pages", str "a.html"] : FPath).tail) = some (str "keep") ∧
      cleanTargetIndex ([str "pages", str "a.html"] : FPath).tail ∉ discover
        [([str "pages", str "a.html"], str "x"), ([str "a", str "index.html"], str "keep")]) ∧
    (Msg.skip (cleanTargetIndex ([str "pages", str "a.html"] : FPath).tail) ∈
      (runScript ⟨false, false, false, str "meta", [], false⟩
        [([str "pages", str "a.html"], str "x"), ([str "a", str "index.html"], str "keep")]).log ∧
      lookupFS (runScript ⟨false, false, false, str "meta", [], false⟩
        [([str "pages", str "a.html"], str "x"), ([str "a", str "index.html"], str "keep")]).fs
        (cleanTargetIndex ([str "pages", str "a.html"] : FPath).tail) = some (str "keep")) :=
  ⟨⟨rfl, rfl, by decide, by decide, by decide⟩,
    claim_C4 ⟨false, false, false, str "meta", [], false⟩
      [([str "pages", str "a.html"], str "x"), ([str "a", str "index.html"], str "keep")]
      [str "pages", str "a.html"] (str "keep") rfl rfl (by decide) (by decide) (by decide)⟩

/-- Claim C5, counterexample.  With `--force` and `--canonical-old`, for
`pages/pages/x.html` whose existing clean target `pages/x/index.html`
held `</head>`: at the end of the run the target's `.bak` no longer
holds the pre-overwrite content `</head>`, and the target does not match
the content the run generated for `pages/pages/x.html` — the target is
itself a legacy page, so the legacy-mutation pass re-backed it up and
rewrote it after the forced overwrite. -/
theorem claim_C5_counterexample :
    lookupFS [([str "pages", str "pages", str "x.html"], []),
        ([str "pages", str "x", str "index.html"], str "</head>")]
      [str "pages", str "x", str "index.html"] = some (str "</head>") ∧
    lookupFS (runScript ⟨false, true, false, str "meta", [], true⟩
        [([str "pages", str "pages", str "x.html"], []),
          ([str "pages", str "x", str "index.html"], str "</head>")]).fs
      (bakPath [str "pages", str "x", str "index.html"]) ≠ some (str "</head>") ∧
    lookupFS (runScript ⟨false, true, false, str "meta", [], true⟩
        [([str "pages", str "pages", str "x.html"], []),
          ([str "pages", str "x", str "index.html"], str "</head>")]).fs
      [str "pages", str "x", str "index.html"] ≠
        some ((addCanonicalToHtml []
          (cleanUrlOf [] ([str "pages", str "pages", str "x.html"] : FPath).tail)).1) := by
  decide

/-- Claim C5, amended: in apply mode with `--force`, for a page file
whose clean target exists (content `t0`, different from the newly
generated content), the run writes exactly one `.bak` sibling of the
target holding the pre-overwrite content `t0` — the backup is taken
before the overwrite, which is why it holds `t0` and not the new
content — and afterwards the target holds the content generated from the
page, provided the target is not itself a discovered legacy page, paths
are distinct in the filesystem, and no other page maps to the same
target or to the page itself. -/
theorem claim_C5 (cfg : Config) (fs : FS) (f : FPath) (t0 c0 : Str)
    (hdry : cfg.dryRun = false) (hforce : cfg.force = true)
    (hnodup : (fs.map (fun e => e.1)).Nodup)
    (hf : f ∈ discover fs)
    (hT : lookupFS fs (cleanTargetIndex f.tail) = some t0)
    (hfc : lookupFS fs f = some c0)
    (hTnd : cleanTargetIndex f.tail ∉ discover fs)
    (huniq : ∀ g ∈ discover fs, g ≠ f →
      cleanTargetIndex g.tail ≠ cleanTargetIndex f.tail ∧ cleanTargetIndex g.tail ≠ f)
    (hdiff : t0 ≠ (addCanonicalToHtml c0 (cleanUrlOf cfg.domain f.tail)).1) :
    lookupFS (runScript cfg fs).fs (cleanTargetIndex f.tail) =
      some ((addCanonicalToHtml c0 (cleanUrlOf cfg.domain f.tail)).1) ∧
    lookupFS (runScript cfg fs).fs (bakPath (cleanTargetIndex f.tail)) = some t0 := by
  have hdnodup : (discover fs).Nodup := List.Nodup.filter _ (by
    simpa [discover] using hnodup)
  obtain ⟨l1, l2, hsplit⟩ := List.append_of_mem hf
  have hnd2 : (l1 ++ f :: l2).Nodup := hsplit ▸ hdnodup
  have hfl1 : f ∉ l1 := by
    intro hmem
    have hd := List.disjoint_of_nodup_append hnd2
    exact hd hmem (List.mem_cons_self _ _)
  have hfl2 : f ∉ l2 := by
    have := (List.nodup_append.mp hnd2).2.1
    exact (List.nodup_cons.mp this).1
  have hmem1 : ∀ g ∈ l1, g ∈ discover fs := by
    intro g hg
    rw [hsplit]
    exact List.mem_append_left _ hg
  have hmem2 : ∀ g ∈ l2, g ∈ discover fs := by
    intro g hg
    rw [hsplit]
    exact List.mem_append_right _ (List.mem_cons_of_mem _ hg)
  have hfhtml : str ".html" <:+ f.getLast?.getD [] := (mem_discover hf).2
  have hfne : f ≠ [] := discover_ne_nil_mem hf
  have hfT : cleanTargetIndex f.tail ≠ f := fun he => hTnd (by rw [he]; exact hf)
  -- the frame packages
  have packT : ∀ g ∈ discover fs, g ≠ f →
      cleanTargetIndex f.tail ≠ cleanTargetIndex g.tail ∧
      cleanTargetIndex f.tail ≠ bakPath (cleanTargetIndex g.tail) ∧
      cleanTargetIndex f.tail ≠ g ∧ cleanTargetIndex f.tail ≠ bakPath g := by
    intro g hg hgf
    exact ⟨fun he => (huniq g hg hgf).1 he.symm,
      cleanTargetIndex_ne_bakPath _ _,
      fun he => hTnd (he ▸ hg),
      cleanTargetIndex_ne_bakPath _ _⟩
  have packBakT : ∀ g ∈ discover fs, g ≠ f →
      bakPath (cleanTargetIndex f.tail) ≠ cleanTargetIndex g.tail ∧
      bakPath (cleanTargetIndex f.tail) ≠ bakPath (cleanTargetIndex g.tail) ∧
      bakPath (cleanTargetIndex f.tail) ≠ g ∧
      bakPath (cleanTargetIndex f.tail) ≠ bakPath g := by
    intro g hg hgf
    refine ⟨fun he => cleanTargetIndex_ne_bakPath g.tail (cleanTargetIndex f.tail) he.symm,
      fun he => (huniq g hg hgf).1
        (bakPath_inj (cleanTargetIndex_ne_nil _) (cleanTargetIndex_ne_nil _) he.symm),
      fun he => html_last_ne_bakPath (cleanTargetIndex f.tail) (mem_discover hg).2 he.symm,
      fun he => hTnd (((bakPath_inj (cleanTargetIndex_ne_nil _)
        (discover_ne_nil_mem hg) he) : cleanTargetIndex f.tail = g) ▸ hg)⟩
  have packF : ∀ g ∈ l1, f ≠ cleanTargetIndex g.tail ∧
      f ≠ bakPath (cleanTargetIndex g.tail) ∧ f ≠ g ∧ f ≠ bakPath g := by
    intro g hg
    have hgf : g ≠ f := fun he => hfl1 (he ▸ hg)
    exact ⟨fun he => (huniq g (hmem1 g hg) hgf).2 he.symm,
      html_last_ne_bakPath _ hfhtml,
      fun he => hgf he.symm,
      html_last_ne_bakPath _ hfhtml⟩
  unfold runScript
  dsimp only
  rw [hsplit, List.foldl_append, List.foldl_cons]
  -- after l1 the target, its backup spot, and the page are untouched
  have hkeepT1 : lookupFS (l1.foldl (processFile cfg) ⟨fs, [], [], []⟩).fs
      (cleanTargetIndex f.tail) = lookupFS fs (cleanTargetIndex f.tail) :=
    foldl_preserved cfg _ l1 _ (fun g hg =>
      packT g (hmem1 g hg) (fun he => hfl1 (he ▸ hg)))
  have hkeepF1 : lookupFS (l1.foldl (processFile cfg) ⟨fs, [], [], []⟩).fs f =
      lookupFS fs f :=
    foldl_preserved cfg _ l1 _ packF
  -- the step of f itself
  have hstep := processFile_force_create cfg
    (l1.foldl (processFile cfg) ⟨fs, [], [], []⟩) f t0 hdry hforce
    (by rw [hkeepT1]; exact hT) hfT hfhtml hfne
  rw [hkeepF1, hfc] at hstep
  -- after l2 both survive
  constructor
  · rw [foldl_preserved cfg _ l2 _ (fun g hg =>
      packT g (hmem2 g hg) (fun he => hfl2 (he ▸ hg)))]
    exact hstep.1
  · rw [foldl_preserved cfg _ l2 _ (fun g hg =>
      packBakT g (hmem2 g hg) (fun he => hfl2 (he ▸ hg)))]
    exact hstep.2

/-- Witness for the amended claim C5: `pages/a.html` (content
`</head>`) whose target `a/index.html` already holds `old`, forced. -/
theorem claim_C5_witness :
    ((⟨false, false, false, str "meta", [], true⟩ : Config).dryRun = false ∧
      (⟨false, false, false, str "meta", [], true⟩ : Config).force = true ∧
      List.Nodup (([([str "pages", str "a.html"], str "</head>"),
        ([str "a", str "index.html"], str "old")] : FS).map (fun e => e.1)) ∧
      [str "pages", str "a.html"] ∈ discover
        [([str "pages", str "a.html"], str "</head>"), ([str "a", str "index.html"], str "old")] ∧
      lookupFS [([str "pages", str "a.html"], str "</head>"), ([str "a", str "index.html"], str "old")]
        (cleanTargetIndex ([str "pages", str "a.html"] : FPath).tail) = some (str "old") ∧
      lookupFS [([str "pages", str "a.html"], str "</head>"), ([str "a", str "index.html"], str "old")]
        [str "pages", str "a.html"] = some (str "</head>") ∧
      cleanTargetIndex ([str "pages", str "a.html"] : FPath).tail ∉ discover
        [([str "pages", str "a.html"], str "</head>"), ([str "a", str "index.html"], str "old")] ∧
      str "old" ≠ (addCanonicalToHtml (str "</head>")
        (cleanUrlOf [] ([str "pages", str "a.html"] : FPath).tail)).1) ∧
    (lookupFS (runScript ⟨false, false, false, str "meta", [], true⟩
        [([str "pages", str "a.html"], str "</head>"), ([str "a", str "index.html"], str "old")]).fs
      (cleanTargetIndex ([str "pages", str "a.html"] : FPath).tail) =
        some ((addCanonicalToHtml (str "</head>")
          (cleanUrlOf [] ([str "pages", str "a.html"] : FPath).tail)).1) ∧
      lookupFS (runScript ⟨false, false, false, str "meta", [], true⟩
        [([str "pages", str "a.html"], str "</head>"), ([str "a", str "index.html"], str "old")]).fs
      (bakPath (cleanTargetIndex ([str "pages", str "a.html"] : FPath).tail)) = some (str "old")) :=
  ⟨⟨rfl, rfl, by decide, by decide, by decide, by decide, by decide, by decide⟩,
    claim_C5 ⟨false, false, false, str "meta", [], true⟩
      [([str "pages", str "a.html"], str "</head>"), ([str "a", str "index.html"], str "old")]
      [str "pages", str "a.html"] (str "old") (str "</head>") rfl rfl (by decide) (by decide)
      (by decide) (by decide) (by decide) (by decide) (by decide)⟩

/-- Claim C6, counterexample.  With the empty URL the canonical injector
is not idempotent: on the document `'</head>'` the first application
inserts `<link rel="canonical" href="">` but the pattern `[^"']+`
requires a nonempty href value, so the second application fails to find
the tag it just inserted and inserts it again, reporting
`changed = true`. -/
theorem claim_C6_counterexample :
    (addCanonicalToHtml (addCanonicalToHtml (str "</head>") []).1 []).2 = true := by
  decide

/-- Claim C6, amended.  For every quote-free document with at most one
`</head>` marker and every nonempty quote-free URL, applying
`add_canonical_to_html` twice with the same URL yields the first
application's output unchanged with `changed = false`: the second
application finds the inserted tag, every match of the pattern captures
exactly the inserted URL as its href value, and substituting it back is
the identity. -/
theorem claim_C6 (content url : Str)
    (hqc : ∀ c ∈ content, isQuote c = false)
    (hocc : occCount content (str "</head>") ≤ 1)
    (hune : url ≠ [])
    (hqu : ∀ c ∈ url, isQuote c = false) :
    addCanonicalToHtml (addCanonicalToHtml content url).1 url =
      ((addCanonicalToHtml content url).1, false) := by
  obtain ⟨P, S, hshape, hP, hS⟩ := firstApp_shape content url hqc hocc
  rw [hshape]
  have hpin : ∀ (j : Nat) (m : RMatch),
      matchAt (shapeT P url S) j = some m → m.g2 = url :=
    fun j m hm => g2_pinned hP hqu hS j m hm
  have hmm : matchAt (shapeT P url S) P.length ≠ none := shape_has_match hune hqu
  have hPlen : P.length ≤ (shapeT P url S).length := by
    unfold shapeT
    simp
  have hs0 : searchFrom (shapeT P url S) 0 ≠ none := searchFrom_zero_some hmm hPlen
  obtain ⟨m0, hm0⟩ := Option.ne_none_iff_exists'.mp hs0
  have hid : subFrom (shapeT P url S) url 0 = shapeT P url S := subFrom_id hpin
  unfold addCanonicalToHtml
  rw [hm0]
  dsimp only
  rw [hid]
  simp

theorem claim_C6_witness :
    ((∀ c ∈ (str "</head>" : Str), isQuote c = false) ∧
      occCount (str "</head>") (str "</head>") ≤ 1 ∧
      (str "x" : Str) ≠ [] ∧ (∀ c ∈ (str "x" : Str), isQuote c = false)) ∧
    addCanonicalToHtml (addCanonicalToHtml (str "</head>") (str "x")).1 (str "x") =
      ((addCanonicalToHtml (str "</head>") (str "x")).1, false) :=
  ⟨⟨by decide, by decide, by decide, by decide⟩,
    claim_C6 (str "</head>") (str "x") (by decide) (by decide) (by decide) (by decide)⟩

/-- Claim C7: the redirect injector is idempotent — for every document,
target URL and delay, the second application with the same target and
delay returns the first application's output unchanged with
`changed = false`, because an identical refresh instruction is already
present. -/
theorem claim_C7 (content target : Str) (seconds : Int) :
    addMetaRefresh (addMetaRefresh content target seconds).1 target seconds =
      ((addMetaRefresh content target seconds).1, false) := by
  have key : pyContains (addMetaRefresh content target seconds).1 (metaTag target seconds) = true := by
    unfold addMetaRefresh
    by_cases h1 : pyContains content (metaTag target seconds) = true
    · rw [if_pos h1]
      exact h1
    · rw [if_neg h1]
      by_cases h2 : pyContains content (str "</head>") = true
      · rw [if_pos h2]
        show pyContains (pyReplace content (str "</head>") _) _ = true
        refine pyContains_iff.mpr (List.IsInfix.trans ?_ (pyReplace_mid (by decide) (pyContains_iff.mp h2)))
        exact ⟨str "  ", str "</head>", rfl⟩
      · rw [if_neg h2]
        show pyContains (metaTag target seconds ++ content) _ = true
        exact pyContains_iff.mpr (List.prefix_append _ _).isInfix
  generalize hR : (addMetaRefresh content target seconds).1 = R at key ⊢
  unfold addMetaRefresh
  rw [if_pos key]

end CleanPages
